import Mathlib

/-!
# DeepDendro: the PipeDream stage (FlowLayer) and its scheduler nodes

A shallow embedding of `src/layers/flow_layer/FlowLayer.h`, of the
forward / backward / weight-update nodes and the graph wiring of
`src/parallelism/PipeDream/PipelineModel.h`, and of the layer links of
`src/layers/parent_layer/Layer.h`.

Modelling conventions

* `double` is modelled by the exact rationals `ℚ`; every statement about
  numbers is a statement in exact arithmetic.
* An Eigen matrix is a shape together with a coefficient function.  Only the
  coefficients inside the shape carry meaning.  Eigen leaves an operation on
  operands of incompatible shapes without defined result; the model is total
  and gives the result the shape that Eigen gives it for compatible operands.
* `size_t` counters are modelled by `Nat`: a counter is incremented once per
  call, so a wrap needs `2^64` calls on one stage.
* `tbb::concurrent_queue`, `std::queue`, `std::vector` and
  `tbb::concurrent_vector` are lists (front of a queue = head of the list,
  push / emplace_back = append at the end).
* `tbb::concurrent_unordered_map<size_t, size_t>` is a partial function
  `Nat → Option Nat`.
* Every member function runs under the stage mutex, so a call is one atomic
  state transformer.
-/

namespace DeepDendro

/-! ## Eigen matrices -/

/-- Dense matrix of run-time shape, the model of Eigen `MatrixXd`. -/
structure MatrixXd where
  rows : Nat
  cols : Nat
  coeff : Nat → Nat → ℚ

/-- Column vector of run-time size, the model of Eigen `VectorXd`: a matrix with one column. -/
abbrev VectorXd : Type := MatrixXd

namespace MatrixXd

/-- Eigen `MatrixXd::Zero(r, c)`. -/
def Zero (r c : Nat) : MatrixXd :=
  ⟨r, c, fun _ _ => 0⟩

/-- Eigen matrix product `A * B`. -/
def mul (A B : MatrixXd) : MatrixXd :=
  ⟨A.rows, B.cols, fun i j => ((List.range A.cols).map (fun k => A.coeff i k * B.coeff k j)).sum⟩

/-- Eigen `A.transpose()`. -/
def transpose (A : MatrixXd) : MatrixXd :=
  ⟨A.cols, A.rows, fun i j => A.coeff j i⟩

/-- Eigen `A.cwiseProduct(B)`, the coefficient-wise product. -/
def cwiseProduct (A B : MatrixXd) : MatrixXd :=
  ⟨A.rows, A.cols, fun i j => A.coeff i j * B.coeff i j⟩

/-- Eigen `A + B` and `A += B`. -/
def add (A B : MatrixXd) : MatrixXd :=
  ⟨A.rows, A.cols, fun i j => A.coeff i j + B.coeff i j⟩

/-- Eigen `A - B`. -/
def sub (A B : MatrixXd) : MatrixXd :=
  ⟨A.rows, A.cols, fun i j => A.coeff i j - B.coeff i j⟩

/-- Eigen `c * A` for a scalar `c`. -/
def smul (c : ℚ) (A : MatrixXd) : MatrixXd :=
  ⟨A.rows, A.cols, fun i j => c * A.coeff i j⟩

/-- Eigen `A /= c` for a scalar `c`. -/
def divScalar (A : MatrixXd) (c : ℚ) : MatrixXd :=
  ⟨A.rows, A.cols, fun i j => A.coeff i j / c⟩

/-- Eigen `Z.colwise() += b`: the vector `b` is added to every column of `Z`. -/
def colwiseAdd (Z : MatrixXd) (b : VectorXd) : MatrixXd :=
  ⟨Z.rows, Z.cols, fun i j => Z.coeff i j + b.coeff i 0⟩

/-- Eigen `A.rowwise().sum()`: the vector of the sums of the rows of `A`. -/
def rowwiseSum (A : MatrixXd) : VectorXd :=
  ⟨A.rows, 1, fun i _ => ((List.range A.cols).map (fun j => A.coeff i j)).sum⟩

end MatrixXd

/-! ## FlowLayer -/

/-- Type `ActivationFunc` of the missing header `activationFuncs.h`: a function on matrices. -/
abbrev ActivationFunc : Type := MatrixXd → MatrixXd

/-- Type `Shape`: a pair of dimensions. -/
abbrev Shape : Type := Nat × Nat

/-- Data members of `FlowLayer` (the mutex apart). -/
structure FlowLayer where
  activ_func : ActivationFunc
  weight_stash : List MatrixXd
  bias_stash : List VectorXd
  stash_map : Nat → Option Nat
  z_value : MatrixXd
  z_values : List MatrixXd
  received_activations : List MatrixXd
  update_after : Nat
  micro_batch_num_forw : Nat
  micro_batch_num_back : Nat
  dz_values : List MatrixXd
  dz_value : MatrixXd
  a_value : MatrixXd
  shape : Shape

/-- Error kinds named by the specification (section 7).  The source contains no `throw`
statement and no error return, so no operation below produces one. -/
inductive StageError where
  | ShapeMismatch
  | MissingStashEntry
  | EmptyStash
  | InsufficientGradients
  deriving DecidableEq, Repr

/-- How a call of a member function ends.
* `returned v s`: a `return` statement ran (or a `void` body ended) in state `s`;
* `raised e s`: an error was handed to the caller;
* `undefined`: an element was read or removed that does not exist (past the end of a
  vector, front of an empty container), or control reached the end of a value-returning
  body without a `return` statement; the language defines nothing about such an execution,
  neither a value nor a state. -/
inductive Completion (σ α : Type) where
  | returned (value : α) (state : σ)
  | raised (error : StageError) (state : σ)
  | undefined

/-- State in which a call returned, if it returned. -/
def Completion.state? {σ α : Type} : Completion σ α → Option σ
  | .returned _ s => some s
  | _ => none

/-- Value that a call returned, if it returned. -/
def Completion.value? {σ α : Type} : Completion σ α → Option α
  | .returned v _ => some v
  | _ => none

/-- Assignment `stash_map[key] = value`. -/
def stash_assign (m : Nat → Option Nat) (key value : Nat) : Nat → Option Nat :=
  fun k => if k = key then some value else m k

/-- Read access `stash_map[key]`: `operator[]` of the map inserts the value-initialised
entry `key ↦ 0` when the key is absent.  Returns the value read and the map afterwards. -/
def stash_index (m : Nat → Option Nat) (key : Nat) : Nat × (Nat → Option Nat) :=
  match m key with
  | some v => (v, m)
  | none => (0, stash_assign m key 0)

/-- Constructor `FlowLayer(curr_neurons, input_shape, activation, update_num)`.
`random i j` stands for the coefficients of
`MatrixXd::Random(curr_neurons, input_shape.first) / sqrt(input_shape.first)`. -/
def FlowLayer.new (curr_neurons : Nat) (input_shape : Shape) (activation : ActivationFunc)
    (update_num : Nat) (random : Nat → Nat → ℚ) : FlowLayer where
  activ_func := activation
  micro_batch_num_forw := 0
  micro_batch_num_back := 0
  update_after := update_num
  weight_stash := [⟨curr_neurons, input_shape.1, random⟩]
  bias_stash := [MatrixXd.Zero curr_neurons 1]
  stash_map := fun _ => none
  z_value := MatrixXd.Zero 0 0
  z_values := []
  received_activations := []
  dz_values := []
  dz_value := MatrixXd.Zero 0 0
  a_value := MatrixXd.Zero 0 0
  shape := (curr_neurons, input_shape.2)

/-- Member `FlowLayer::forward_prop(prev_a_values)`. -/
def FlowLayer.forward_prop (s : FlowLayer) (prev_a_values : MatrixXd) :
    Completion FlowLayer MatrixXd :=
  -- received_activations.push(prev_a_values)
  let s1 := { s with received_activations := s.received_activations ++ [prev_a_values] }
  match s1.weight_stash.getLast?, s1.bias_stash.getLast? with
  | some W, some b =>
    -- z_value = weight_stash.back() * prev_a_values; z_value.colwise() += bias_stash.back()
    let s2 := { s1 with z_value := (W.mul prev_a_values).colwiseAdd b }
    -- z_values.emplace(z_value)
    let s3 := { s2 with z_values := s2.z_values ++ [s2.z_value] }
    -- a_value = activ_func(z_value)
    let s4 := { s3 with a_value := s3.activ_func s3.z_value }
    -- stash_map[micro_batch_num_forw++] = weight_stash.size() - 1
    let s5 := { s4 with
      stash_map := stash_assign s4.stash_map s4.micro_batch_num_forw (s4.weight_stash.length - 1)
      micro_batch_num_forw := s4.micro_batch_num_forw + 1 }
    .returned s5.a_value s5
  | _, _ => .undefined

/-- Member `FlowLayer::calc_gradient()`:
`weight_stash[stash_map[micro_batch_num_back++]].transpose() * dz_value`. -/
def FlowLayer.calc_gradient (s : FlowLayer) : Completion FlowLayer MatrixXd :=
  let key := s.micro_batch_num_back
  let s1 := { s with micro_batch_num_back := s.micro_batch_num_back + 1 }
  let s2 := { s1 with stash_map := (stash_index s1.stash_map key).2 }
  match s2.weight_stash[(stash_index s1.stash_map key).1]? with
  | some W => .returned (W.transpose.mul s2.dz_value) s2
  | none => .undefined

/-- Member `FlowLayer::back_prop(gradient)`.  `find_activation_der` is the function of
that name of the missing header `activationDerivative.h`. -/
def FlowLayer.back_prop (find_activation_der : ActivationFunc → ActivationFunc)
    (s : FlowLayer) (gradient : MatrixXd) : Completion FlowLayer MatrixXd :=
  -- if (z_values.try_pop(z_value))
  match s.z_values with
  | z :: rest =>
    let s1 := { s with z_value := z, z_values := rest }
    let act_func_der := find_activation_der s1.activ_func s1.z_value
    let s2 := { s1 with dz_value := gradient.cwiseProduct act_func_der }
    -- dz_values.emplace_back(dz_value)
    let s3 := { s2 with dz_values := s2.dz_values ++ [s2.dz_value] }
    s3.calc_gradient
  -- no `else`: control flows off the end of the function, no `return` statement runs
  | [] => .undefined

/-- Summation loop of `update_weights`, `for (int i = 0; i < update_after; ++i)`:
`remaining` iterations are left, the next one reads `dz_values[i]`. -/
def FlowLayer.update_weights.sum_loop (dz_values : List MatrixXd) :
    Nat → Nat → MatrixXd × VectorXd → Option (MatrixXd × VectorXd)
  | 0, _, acc => some acc
  | remaining + 1, i, acc =>
    match dz_values[i]? with
    | some dz => sum_loop dz_values remaining (i + 1) (acc.1.add dz, acc.2.add dz.rowwiseSum)
    | none => none

/-- Removal loop of `update_weights`: `received_activations.pop()`, `remaining` times. -/
def FlowLayer.update_weights.pop_loop : Nat → List MatrixXd → Option (List MatrixXd)
  | 0, q => some q
  | _ + 1, [] => none
  | remaining + 1, _ :: q => pop_loop remaining q

/-- Member `FlowLayer::update_weights(learning_rate, id)`; `id` is only used by a
commented-out trace line. -/
def FlowLayer.update_weights (s : FlowLayer) (learning_rate : ℚ) : Completion FlowLayer Unit :=
  -- dz_values.front()
  match s.dz_values.head? with
  | none => .undefined
  | some front =>
    let res_weights := MatrixXd.Zero front.rows front.cols
    let res_biases := MatrixXd.Zero front.rows 1
    match FlowLayer.update_weights.sum_loop s.dz_values s.update_after 0 (res_weights, res_biases) with
    | none => .undefined
    | some (res_weights, res_biases) =>
      let res_weights := res_weights.divScalar (s.update_after : ℚ)
      let res_biases := res_biases.divScalar (s.update_after : ℚ)
      match s.weight_stash.getLast?, s.bias_stash.getLast?, s.received_activations.head? with
      | some W, some b, some a =>
        let tmp := W.sub (((MatrixXd.smul learning_rate res_weights)).mul a.transpose)
        let tmp2 := b.sub (MatrixXd.smul learning_rate res_biases)
        let s1 := { s with weight_stash := s.weight_stash ++ [tmp] }
        let s2 := { s1 with bias_stash := s1.bias_stash ++ [tmp2] }
        -- dz_values.erase(dz_values.begin(), dz_values.begin() + update_after)
        let s3 := { s2 with dz_values := s2.dz_values.drop s2.update_after }
        match FlowLayer.update_weights.pop_loop s3.update_after s3.received_activations with
        | some q => .returned () { s3 with received_activations := q }
        | none => .undefined
      | _, _, _ => .undefined

/-! ## Sequences of calls on one stage -/

/-- One call of a public member function of a stage. -/
inductive Call where
  | forward_prop (prev_a_values : MatrixXd)
  | back_prop (gradient : MatrixXd)
  | update_weights (learning_rate : ℚ)

/-- State after one call, when the call returns. -/
def FlowLayer.step (find_activation_der : ActivationFunc → ActivationFunc) (s : FlowLayer) :
    Call → Option FlowLayer
  | .forward_prop x => (s.forward_prop x).state?
  | .back_prop g => (s.back_prop find_activation_der g).state?
  | .update_weights lr => (s.update_weights lr).state?

/-- State after a sequence of calls, when every call returns. -/
def FlowLayer.run (find_activation_der : ActivationFunc → ActivationFunc) :
    FlowLayer → List Call → Option FlowLayer
  | s, [] => some s
  | s, c :: cs =>
    match s.step find_activation_der c with
    | some s1 => FlowLayer.run find_activation_der s1 cs
    | none => none

/-- Number of `forward_prop` calls in a sequence. -/
def countForward : List Call → Nat
  | [] => 0
  | .forward_prop _ :: cs => countForward cs + 1
  | _ :: cs => countForward cs

/-- Number of `back_prop` calls in a sequence. -/
def countBackward : List Call → Nat
  | [] => 0
  | .back_prop _ :: cs => countBackward cs + 1
  | _ :: cs => countBackward cs

/-! ## Scheduler nodes of one stage (PipelineModel) -/

/-- Test by which the graph nodes recognise the poison pill:
`m.cols() == 1 && m.rows() == 1 && m(0, 0) == -1.0`. -/
def isPoisonPill (m : MatrixXd) : Bool :=
  decide (m.cols = 1) && decide (m.rows = 1) && decide (m.coeff 0 0 = -1)

/-- Part of the `PipelineModel` state that the three nodes of stage `i` work on. -/
structure StageNodes where
  /-- Stage `layers[i]`. -/
  layer : FlowLayer
  /-- Counter `microBatchCounters[i]`. -/
  microBatchCounter : Nat
  /-- Number of messages put to `weightUpdates[i]` whose body has not run yet. -/
  weightUpdateInbox : Nat

/-- Method `PipelineModel::addLayer(size, shape, activationFunc, updateAfter)`: appends a new
`FlowLayer`.  The `int updateAfter` is converted to the `size_t` parameter of the constructor.
`activation` stands for `find_activation_func(activationFunc)` of a missing header. -/
def addLayer (layers : List FlowLayer) (size : Nat) (shape : Shape) (activation : ActivationFunc)
    (updateAfter : Int) (random : Nat → Nat → ℚ) : List FlowLayer :=
  layers ++ [FlowLayer.new size shape activation (updateAfter % 2 ^ 64).toNat random]

/-- Body of `forwardNodes[i]` (and of `func1`, `func2` of `run_pipeline`): the message
passed on and the state afterwards, when the body returns. -/
def forwardNode (st : StageNodes) (m : MatrixXd) : Option (MatrixXd × StageNodes) :=
  if isPoisonPill m then
    some (m, st)
  else
    match st.layer.forward_prop m with
    | .returned a layer => some (a, { st with layer := layer })
    | _ => none

/-- Body of `backwardNodes[i]` (and of `back_func1`, `back_func2` of `run_pipeline`): the
message passed on and the state afterwards, when the body returns. -/
def backwardNode (find_activation_der : ActivationFunc → ActivationFunc) (st : StageNodes)
    (m : MatrixXd) : Option (MatrixXd × StageNodes) :=
  if isPoisonPill m then
    some (m, st)
  else
    match st.layer.back_prop find_activation_der m with
    | .returned grad layer =>
      let st1 := { st with layer := layer }
      -- microBatchCounters[i]++
      let st2 := { st1 with microBatchCounter := st1.microBatchCounter + 1 }
      -- if (microBatchCounters[i] == 8)
      if st2.microBatchCounter = 8 then
        -- microBatchCounters[i] = 0; weightUpdates[i].try_put(true)
        some (grad, { st2 with microBatchCounter := 0
                               weightUpdateInbox := st2.weightUpdateInbox + 1 })
      else
        some (grad, st2)
    | _ => none

/-- Body of `weightUpdates[i]`, run for one message of its inbox:
`layers[i]->update_weights(learning_rate, i)`. -/
def weightUpdateNode (learning_rate : ℚ) (st : StageNodes) : Option StageNodes :=
  match st.weightUpdateInbox with
  | 0 => none
  | inbox + 1 =>
    match st.layer.update_weights learning_rate with
    | .returned _ layer => some { st with layer := layer, weightUpdateInbox := inbox }
    | _ => none

/-- One node execution of a stage. -/
inductive NodeEvent where
  | forward (m : MatrixXd)
  | backward (m : MatrixXd)
  | weightUpdate

/-- State of the stage after one node execution, when the body returns. -/
def StageNodes.step (find_activation_der : ActivationFunc → ActivationFunc) (learning_rate : ℚ)
    (st : StageNodes) : NodeEvent → Option StageNodes
  | .forward m => (forwardNode st m).map Prod.snd
  | .backward m => (backwardNode find_activation_der st m).map Prod.snd
  | .weightUpdate => weightUpdateNode learning_rate st

/-- State of the stage after a sequence of node executions, when every body returns. -/
def StageNodes.run (find_activation_der : ActivationFunc → ActivationFunc) (learning_rate : ℚ) :
    StageNodes → List NodeEvent → Option StageNodes
  | st, [] => some st
  | st, e :: es =>
    match st.step find_activation_der learning_rate e with
    | some st1 => StageNodes.run find_activation_der learning_rate st1 es
    | none => none

/-- Number of backward-node executions on a message that is not the poison pill. -/
def countRealBackward : List NodeEvent → Nat
  | [] => 0
  | .backward m :: es => if isPoisonPill m then countRealBackward es else countRealBackward es + 1
  | _ :: es => countRealBackward es

/-- No weight-update node execution occurs in the sequence. -/
def noWeightUpdate : List NodeEvent → Bool
  | [] => true
  | .weightUpdate :: _ => false
  | _ :: es => noWeightUpdate es

/-- Fresh stage of the graph: a newly constructed layer, counter zero, empty inbox. -/
def StageNodes.fresh (layer : FlowLayer) : StageNodes :=
  ⟨layer, 0, 0⟩

/-! ## Properties a stage keeps -/

/-- A stage was constructed and then driven by calls that all returned. -/
def FlowLayer.Reachable (find_activation_der : ActivationFunc → ActivationFunc)
    (s : FlowLayer) : Prop :=
  ∃ (curr_neurons : Nat) (input_shape : Shape) (activation : ActivationFunc) (update_num : Nat)
    (random : Nat → Nat → ℚ) (calls : List Call),
    FlowLayer.run find_activation_der
      (FlowLayer.new curr_neurons input_shape activation update_num random) calls = some s

/-- Bookkeeping relations between the counters, the queues and the stash of a stage. -/
structure FlowLayer.Consistent (s : FlowLayer) : Prop where
  weights : s.weight_stash ≠ []
  biases : s.bias_stash ≠ []
  z_len : s.z_values.length + s.micro_batch_num_back = s.micro_batch_num_forw
  received_len : s.received_activations.length + s.micro_batch_num_back
    = s.dz_values.length + s.micro_batch_num_forw
  stash : ∀ k, k < s.micro_batch_num_forw →
    ∃ g, s.stash_map k = some g ∧ g < s.weight_stash.length

/-- Micro-batch `k` is in flight: its pre-activation `z` waits in the queue at the position
that the backward counter will reach, and the stash maps `k` to generation `gen` holding `W`. -/
structure FlowLayer.Tracked (k : Nat) (z W : MatrixXd) (gen : Nat) (s : FlowLayer) : Prop where
  behind : s.micro_batch_num_back ≤ k
  ahead : k < s.micro_batch_num_forw
  queued : s.z_values[k - s.micro_batch_num_back]? = some z
  mapped : s.stash_map k = some gen
  stored : s.weight_stash[gen]? = some W

/-- State of a stage of `run_pipeline` (layers constructed with `update_after = 8`) after
`n` backward-node executions on real micro-batches and no weight-update execution. -/
structure StageNodes.Cadence (st : StageNodes) (n : Nat) : Prop where
  consistent : st.layer.Consistent
  update_after : st.layer.update_after = 8
  pending : st.layer.dz_values.length = n
  versions : st.layer.weight_stash.length = 1
  counter : st.microBatchCounter = n % 8
  inbox : st.weightUpdateInbox = n / 8

/-- Every generation that the stash map refers to is stored in the weight stash. -/
structure FlowLayer.StashInBounds (s : FlowLayer) : Prop where
  stored : s.weight_stash ≠ []
  paired : s.bias_stash.length = s.weight_stash.length
  bound : ∀ k g, s.stash_map k = some g → g < s.weight_stash.length

/-! ## Draining one stage -/

/-- Number of forward-node executions on a message that is not the poison pill. -/
def countRealForward : List NodeEvent → Nat
  | [] => 0
  | .forward m :: es => if isPoisonPill m then countRealForward es else countRealForward es + 1
  | _ :: es => countRealForward es

/-- Node executions of one stage while the real micro-batches `batches` (input and gradient
coming back) pass one after the other, `k` micro-batches having passed before: forward node,
backward node and, after every eighth backward execution, the weight-update node for the
message just put. -/
def drainSchedule : Nat → List (MatrixXd × MatrixXd) → List NodeEvent
  | _, [] => []
  | k, (x, g) :: rest =>
    [NodeEvent.forward x, NodeEvent.backward g]
      ++ (if (k + 1) % 8 = 0 then [NodeEvent.weightUpdate] else [])
      ++ drainSchedule (k + 1) rest

/-- State of a stage with `update_after = 8` after `nf` forward-node and `nb` backward-node
executions on real micro-batches, whatever weight-update executions ran. -/
structure StageNodes.Draining (st : StageNodes) (nf nb : Nat) : Prop where
  consistent : st.layer.Consistent
  update_after : st.layer.update_after = 8
  forwarded : st.layer.micro_batch_num_forw = nf
  backwarded : st.layer.micro_batch_num_back = nb
  counter : st.microBatchCounter = nb % 8
  pending : st.layer.dz_values.length = 8 * st.weightUpdateInbox + nb % 8
  unrecorded : ∀ k, nf ≤ k → st.layer.stash_map k = none

/-- What is left in a stage (`update_after = 8`) that `M` micro-batches have passed, all
weight updates put having run: both counters at `M`, the z-queue empty, the stash map with
its `M` entries, and `M % 8` pending gradients and received inputs. -/
def StageNodes.Drained (st : StageNodes) (M : Nat) : Prop :=
  st.layer.micro_batch_num_forw = M ∧ st.layer.micro_batch_num_back = M ∧
    st.layer.z_values = [] ∧
    (∀ k, (st.layer.stash_map k).isSome = true ↔ k < M) ∧
    st.layer.dz_values.length = M % 8 ∧
    st.layer.received_activations.length = M % 8

/-! ## A chain of stages -/

/-- A message on its way through `forwardNodes[0]`, `forwardNodes[1]`, … of the stages. -/
def forwardChain : List StageNodes → MatrixXd → Option (MatrixXd × List StageNodes)
  | [], m => some (m, [])
  | st :: rest, m =>
    match forwardNode st m with
    | some (a, st1) =>
      match forwardChain rest a with
      | some (out, rest1) => some (out, st1 :: rest1)
      | none => none
    | none => none

/-- A message on its way back through the backward nodes of the stages, the last stage
first. -/
def backwardChain (find_activation_der : ActivationFunc → ActivationFunc) :
    List StageNodes → MatrixXd → Option (MatrixXd × List StageNodes)
  | [], m => some (m, [])
  | st :: rest, m =>
    match backwardChain find_activation_der rest m with
    | some (g, rest1) =>
      match backwardNode find_activation_der st g with
      | some (g0, st1) => some (g0, st1 :: rest1)
      | none => none
    | none => none

/-- One message from the source through every forward node, the two nodes of the output
layer and every backward node.  The class `FlowOutputLayer` is not part of the sources at
hand: `output_forward_prop` and `calc_first_back_prop` stand for the values that its member
functions of these names return. -/
def pipelinePass (find_activation_der : ActivationFunc → ActivationFunc)
    (output_forward_prop calc_first_back_prop : MatrixXd → MatrixXd)
    (stages : List StageNodes) (m : MatrixXd) : Option (List StageNodes) :=
  match forwardChain stages m with
  | some (a, stages1) =>
    let out := if isPoisonPill a then a else output_forward_prop a
    let grad := if isPoisonPill out then out else calc_first_back_prop out
    (backwardChain find_activation_der stages1 grad).map Prod.snd
  | none => none

/-- Several messages, each passing the whole pipeline before the next one enters. -/
def pipelinePasses (find_activation_der : ActivationFunc → ActivationFunc)
    (output_forward_prop calc_first_back_prop : MatrixXd → MatrixXd) :
    List StageNodes → List MatrixXd → Option (List StageNodes)
  | stages, [] => some stages
  | stages, m :: ms =>
    match pipelinePass find_activation_der output_forward_prop calc_first_back_prop stages m with
    | some stages1 =>
      pipelinePasses find_activation_der output_forward_prop calc_first_back_prop stages1 ms
    | none => none

/-! ## The flow graph of `runConfPipeline` -/

/-- A node that `make_edge` connects: the input node or an element of `forwardNodes` or
`backwardNodes`, named by its index. -/
inductive GraphNode where
  | input
  | forwardNodes (i : Nat)
  | backwardNodes (i : Nat)
  deriving DecidableEq, Repr

/-- The node vectors of `PipelineModel`, by their sizes, and the edges made so far. -/
structure FlowGraph where
  forwardNodes : Nat
  weightUpdates : Nat
  backwardNodes : Nat
  edges : List (GraphNode × GraphNode)

/-- The node exists: its index is inside its vector. -/
def FlowGraph.contains (g : FlowGraph) : GraphNode → Bool
  | .input => true
  | .forwardNodes i => decide (i < g.forwardNodes)
  | .backwardNodes i => decide (i < g.backwardNodes)

/-- Call `make_edge(a, b)`; indexing a node vector outside its bounds is not defined. -/
def FlowGraph.make_edge (g : FlowGraph) (a b : GraphNode) : Option FlowGraph :=
  if g.contains a && g.contains b then
    some { g with edges := g.edges ++ [(a, b)] }
  else
    none

/-- First loop of `runConfPipeline`, `for (int i = 0; i < layers.size(); ++i)`: each round
appends one node to `forwardNodes`, `weightUpdates` and `backwardNodes`. -/
def runConfPipeline.node_loop : Nat → FlowGraph → FlowGraph
  | 0, g => g
  | remaining + 1, g =>
    node_loop remaining
      { g with forwardNodes := g.forwardNodes + 1, weightUpdates := g.weightUpdates + 1
               backwardNodes := g.backwardNodes + 1 }

/-- Second loop of `runConfPipeline`, `for (int i = 0; i < layers.size(); ++i)`:
`make_edge(forwardNodes[i], forwardNodes[i+1]); make_edge(backwardNodes[i+1], backwardNodes[i])`,
with `remaining` rounds left. -/
def runConfPipeline.edge_loop : Nat → Nat → FlowGraph → Option FlowGraph
  | 0, _, g => some g
  | remaining + 1, i, g =>
    match g.make_edge (.forwardNodes i) (.forwardNodes (i + 1)) with
    | some g1 =>
      match g1.make_edge (.backwardNodes (i + 1)) (.backwardNodes i) with
      | some g2 => edge_loop remaining (i + 1) g2
      | none => none
    | none => none

/-- Graph construction of `runConfPipeline` on a `PipelineModel` whose node vectors are still
empty and whose `layers` has `layers_size` elements. -/
def runConfPipeline.graph (layers_size : Nat) : Option FlowGraph :=
  let g := runConfPipeline.node_loop layers_size ⟨0, 0, 0, []⟩
  -- the nodes of the output layer
  let g := { g with forwardNodes := g.forwardNodes + 1, weightUpdates := g.weightUpdates + 1
                    backwardNodes := g.backwardNodes + 1 }
  -- make_edge(input, forwardNodes[0])
  match g.make_edge .input (.forwardNodes 0) with
  | some g1 =>
    -- make_edge(forwardNodes[forwardNodes.size()-1], backwardNodes[backwardNodes.size()-1])
    match g1.make_edge (.forwardNodes (g1.forwardNodes - 1))
        (.backwardNodes (g1.backwardNodes - 1)) with
    | some g2 => runConfPipeline.edge_loop layers_size 0 g2
    | none => none
  | none => none

/-- Edges that `rounds` rounds of the second loop of `runConfPipeline` make, the first of
them with index `i`. -/
def runConfPipeline.loop_edges : Nat → Nat → List (GraphNode × GraphNode)
  | 0, _ => []
  | rounds + 1, i =>
    (GraphNode.forwardNodes i, GraphNode.forwardNodes (i + 1))
      :: (GraphNode.backwardNodes (i + 1), GraphNode.backwardNodes i)
      :: loop_edges rounds (i + 1)

/-- Pairs of neighbours of a list: the edges of the path that visits the list in order. -/
def consecutive {α : Type} : List α → List (α × α)
  | a :: b :: l => (a, b) :: consecutive (b :: l)
  | _ => []

/-- Following the words of the specification (section 4.4), not the source: the chain
`source → forward[0] → … → forward[n] → backward[n] → … → backward[0]` as the list of the
nodes it visits. -/
def spec_chain (n : Nat) : List GraphNode :=
  GraphNode.input :: ((List.range (n + 1)).map GraphNode.forwardNodes
    ++ (List.range (n + 1)).reverse.map GraphNode.backwardNodes)

/-! ## Micro-batches by sequence number -/

/-- What the calls on a stage did, by sequence number.  `forwards[k]` is the input of the
`k`-th `forward_prop` call and the `z` it computed; `backwards[k]` is the gradient passed to
the `k`-th `back_prop` call and the `dz` it appended to `dz_values`; `retired` is the number
of entries that `update_weights` calls removed from `dz_values`. -/
structure History where
  forwards : List (MatrixXd × MatrixXd)
  backwards : List (MatrixXd × MatrixXd)
  retired : Nat

/-- The history before the first call. -/
def History.empty : History :=
  ⟨[], [], 0⟩

/-- The history after the call `c`, which led from state `s` to state `s1`. -/
def History.record (h : History) (s : FlowLayer) : Call → FlowLayer → History
  | .forward_prop x, s1 => { h with forwards := h.forwards ++ [(x, s1.z_value)] }
  | .back_prop g, s1 => { h with backwards := h.backwards ++ [(g, s1.dz_value)] }
  | .update_weights _, _ => { h with retired := h.retired + s.update_after }

/-- State and history after a sequence of calls, when every call returns. -/
def FlowLayer.runLogged (find_activation_der : ActivationFunc → ActivationFunc) :
    FlowLayer → History → List Call → Option (FlowLayer × History)
  | s, h, [] => some (s, h)
  | s, h, c :: cs =>
    match s.step find_activation_der c with
    | some s1 => FlowLayer.runLogged find_activation_der s1 (h.record s c s1) cs
    | none => none

/-- The queues of the stage hold what the history says: `received_activations` and
`dz_values` are the inputs and the gradients of the micro-batches from sequence number
`retired` on, `z_values` the pre-activations of the micro-batches that no `back_prop` has
served yet, and every `dz` recorded for a sequence number was computed from the `z` recorded
for the same sequence number. -/
structure FlowLayer.Aligned (der : ActivationFunc → ActivationFunc) (act : ActivationFunc)
    (s : FlowLayer) (h : History) : Prop where
  activation : s.activ_func = act
  forwarded : h.forwards.length = s.micro_batch_num_forw
  backwarded : h.backwards.length = s.micro_batch_num_back
  ordered : s.micro_batch_num_back ≤ s.micro_batch_num_forw
  retired : h.retired ≤ s.micro_batch_num_back
  received : s.received_activations = (h.forwards.map Prod.fst).drop h.retired
  pending : s.dz_values = (h.backwards.map Prod.snd).drop h.retired
  queued : s.z_values = (h.forwards.map Prod.snd).drop s.micro_batch_num_back
  computed : ∀ (k : Nat) (g dz : MatrixXd), h.backwards[k]? = some (g, dz) →
    ∃ x z, h.forwards[k]? = some (x, z) ∧ dz = g.cwiseProduct (der act z)

/-! ## The layer graph (Layer.h) -/

/-- Data members of `Layer`.  A `std::shared_ptr<Layer>` is modelled by the address of the
layer it owns. -/
structure Layer where
  shape : List Int
  parent_layers_ : List Nat
  child_layers_ : List Nat
  a_values : MatrixXd
  weight_delta_next_layer_ : MatrixXd

/-- The layers owned by shared pointers, by address. -/
abbrev LayerHeap : Type := Nat → Option Layer

/-- Member `Layer::get_parents()`. -/
def Layer.get_parents (l : Layer) : List Nat :=
  l.parent_layers_

/-- Member `Layer::get_children()`. -/
def Layer.get_children (l : Layer) : List Nat :=
  l.child_layers_

/-- The heap with the layer at address `self` replaced. -/
def LayerHeap.store (heap : LayerHeap) (self : Nat) (l : Layer) : LayerHeap :=
  fun a => if a = self then some l else heap a

/-- Member `Layer::add_child(child)` of the layer at address `self`:
`child_layers_.push_back(child)`.  Not defined when no layer lives at `self`. -/
def Layer.add_child (heap : LayerHeap) (self child : Nat) : Option LayerHeap :=
  match heap self with
  | some l => some (heap.store self { l with child_layers_ := l.child_layers_ ++ [child] })
  | none => none

/-- Member `Layer::operator()(parent)` of the layer at address `self`:
`parent_layers_.push_back(parent); parent->add_child(shared_from_this())`.  Not defined when
no layer owned by a shared pointer lives at `self` or at `parent`. -/
def Layer.operator_call (heap : LayerHeap) (self parent : Nat) : Option LayerHeap :=
  match heap self with
  | some l =>
    let heap1 := heap.store self { l with parent_layers_ := l.parent_layers_ ++ [parent] }
    Layer.add_child heap1 parent self
  | none => none

/-- Layer `p` occurs in the parents of layer `c` exactly as often as `c` occurs in the
children of `p`, for all layers `p` and `c` of the heap. -/
def LayerHeap.Symmetric (heap : LayerHeap) : Prop :=
  ∀ (p c : Nat) (P C : Layer), heap p = some P → heap c = some C →
    C.get_parents.count p = P.get_children.count c

/-- A heap with two unlinked layers, at the addresses 0 and 1. -/
def twoLayers : LayerHeap :=
  fun a => if a = 0 ∨ a = 1 then some ⟨[4], [], [], MatrixXd.Zero 0 0, MatrixXd.Zero 0 0⟩ else none

/-! ## Concrete data for the examples -/

/-- The 1×1 matrix with coefficient `c`. -/
def MatrixXd.scalar (c : ℚ) : MatrixXd :=
  ⟨1, 1, fun _ _ => c⟩

/-- The 1×2 matrix with coefficients `c` and `d`: one feature, a micro-batch of two
samples. -/
def MatrixXd.pair (c d : ℚ) : MatrixXd :=
  ⟨1, 2, fun _ j => if j = 0 then c else d⟩

/-- Identity activation, an admissible value of `activ_func`. -/
def linear : ActivationFunc :=
  fun z => z

/-- An admissible value of `find_activation_der`: the derivative of the identity activation,
the all-ones matrix of the shape of `z`. -/
def linear_der : ActivationFunc → ActivationFunc :=
  fun _ z => ⟨z.rows, z.cols, fun _ _ => 1⟩

/-- Stage with one neuron and one input whose initial weight is `w`, with the identity
activation. -/
def scalarStage (update_num : Nat) (w : ℚ) : FlowLayer :=
  FlowLayer.new 1 (1, 1) linear update_num (fun _ _ => w)

/-- Eight rounds of one forward-node and one backward-node execution on real
micro-batches. -/
def eightRounds : List NodeEvent :=
  (List.replicate 8
    [NodeEvent.forward (MatrixXd.scalar 3), NodeEvent.backward (MatrixXd.scalar 1)]).flatten

/-- Following the words of claim C6, not the source: the weight matrix
`latest - learning_rate * (1/u) * Σ_{i<u} dz_i * a_i^T`, each of the `u` oldest pending
gradients paired with the received input of the same micro-batch. -/
def spec_paired_update (latest : MatrixXd) (learning_rate : ℚ) (u : Nat)
    (dz_values received_activations : List MatrixXd) : MatrixXd :=
  let products := List.zipWith (fun dz a => dz.mul a.transpose)
    (dz_values.take u) (received_activations.take u)
  let total := products.foldl MatrixXd.add (MatrixXd.Zero latest.rows latest.cols)
  latest.sub (MatrixXd.smul learning_rate (MatrixXd.smul (1 / (u : ℚ)) total))

/-! ## What each member function does when it returns -/

theorem Completion.state?_eq_some {σ α : Type} {c : Completion σ α} {s : σ}
    (h : c.state? = some s) : ∃ v, c = .returned v s := by
  cases c <;> simp [Completion.state?] at h
  subst h
  exact ⟨_, rfl⟩

theorem FlowLayer.forward_prop_eq (s : FlowLayer) (x W b : MatrixXd)
    (hW : s.weight_stash.getLast? = some W) (hb : s.bias_stash.getLast? = some b) :
    s.forward_prop x = .returned (s.activ_func ((W.mul x).colwiseAdd b))
      { s with
        received_activations := s.received_activations ++ [x]
        z_value := (W.mul x).colwiseAdd b
        z_values := s.z_values ++ [(W.mul x).colwiseAdd b]
        a_value := s.activ_func ((W.mul x).colwiseAdd b)
        stash_map := stash_assign s.stash_map s.micro_batch_num_forw (s.weight_stash.length - 1)
        micro_batch_num_forw := s.micro_batch_num_forw + 1 } := by
  simp [FlowLayer.forward_prop, hW, hb]

theorem FlowLayer.forward_prop_inv {s s1 : FlowLayer} {x a : MatrixXd}
    (h : s.forward_prop x = .returned a s1) :
    ∃ W b, s.weight_stash.getLast? = some W ∧ s.bias_stash.getLast? = some b := by
  cases hW : s.weight_stash.getLast? with
  | none => simp [FlowLayer.forward_prop, hW] at h
  | some W =>
    cases hb : s.bias_stash.getLast? with
    | none => simp [FlowLayer.forward_prop, hW, hb] at h
    | some b => exact ⟨W, b, rfl, rfl⟩

theorem FlowLayer.calc_gradient_eq (s : FlowLayer) (gen : Nat) (W : MatrixXd)
    (hmap : s.stash_map s.micro_batch_num_back = some gen)
    (hW : s.weight_stash[gen]? = some W) :
    s.calc_gradient = .returned (W.transpose.mul s.dz_value)
      { s with micro_batch_num_back := s.micro_batch_num_back + 1 } := by
  simp [FlowLayer.calc_gradient, stash_index, hmap, hW]

theorem FlowLayer.back_prop_eq (der : ActivationFunc → ActivationFunc) (s : FlowLayer)
    (g z W : MatrixXd) (rest : List MatrixXd) (gen : Nat)
    (hz : s.z_values = z :: rest)
    (hmap : s.stash_map s.micro_batch_num_back = some gen)
    (hW : s.weight_stash[gen]? = some W) :
    s.back_prop der g = .returned (W.transpose.mul (g.cwiseProduct (der s.activ_func z)))
      { s with
        z_value := z
        z_values := rest
        dz_value := g.cwiseProduct (der s.activ_func z)
        dz_values := s.dz_values ++ [g.cwiseProduct (der s.activ_func z)]
        micro_batch_num_back := s.micro_batch_num_back + 1 } := by
  simp [FlowLayer.back_prop, hz, FlowLayer.calc_gradient, stash_index, hmap, hW]

theorem FlowLayer.back_prop_inv {der : ActivationFunc → ActivationFunc} {s s1 : FlowLayer}
    {g grad : MatrixXd} (h : s.back_prop der g = .returned grad s1) :
    ∃ z rest, s.z_values = z :: rest ∧
      s1 = { s with
        z_value := z
        z_values := rest
        dz_value := g.cwiseProduct (der s.activ_func z)
        dz_values := s.dz_values ++ [g.cwiseProduct (der s.activ_func z)]
        stash_map := (stash_index s.stash_map s.micro_batch_num_back).2
        micro_batch_num_back := s.micro_batch_num_back + 1 } := by
  cases hz : s.z_values with
  | nil => simp [FlowLayer.back_prop, hz] at h
  | cons z rest =>
    refine ⟨z, rest, rfl, ?_⟩
    simp only [FlowLayer.back_prop, hz, FlowLayer.calc_gradient] at h
    split at h
    · simp only [Completion.returned.injEq] at h
      exact h.2.symm
    · simp at h

theorem FlowLayer.update_weights.sum_loop_some (dz_values : List MatrixXd) :
    ∀ (remaining i : Nat) (acc : MatrixXd × VectorXd), i + remaining ≤ dz_values.length →
      ∃ r, FlowLayer.update_weights.sum_loop dz_values remaining i acc = some r := by
  intro remaining
  induction remaining with
  | zero => intro i acc _; exact ⟨acc, rfl⟩
  | succ n ih =>
    intro i acc h
    have hi : i < dz_values.length := by omega
    obtain ⟨r, hr⟩ := ih (i + 1) (acc.1.add dz_values[i], acc.2.add dz_values[i].rowwiseSum)
      (by omega)
    refine ⟨r, ?_⟩
    simp [FlowLayer.update_weights.sum_loop, List.getElem?_eq_getElem hi, hr]

theorem FlowLayer.update_weights.sum_loop_none (dz_values : List MatrixXd) :
    ∀ (remaining i : Nat) (acc : MatrixXd × VectorXd), i ≤ dz_values.length →
      dz_values.length < i + remaining →
      FlowLayer.update_weights.sum_loop dz_values remaining i acc = none := by
  intro remaining
  induction remaining with
  | zero => intro i acc h1 h2; omega
  | succ n ih =>
    intro i acc h1 h2
    by_cases hi : i < dz_values.length
    · simp only [FlowLayer.update_weights.sum_loop, List.getElem?_eq_getElem hi]
      exact ih (i + 1) _ (by omega) (by omega)
    · have : dz_values[i]? = none := List.getElem?_eq_none (by omega)
      simp [FlowLayer.update_weights.sum_loop, this]

theorem FlowLayer.update_weights.pop_loop_eq :
    ∀ (remaining : Nat) (q : List MatrixXd), remaining ≤ q.length →
      FlowLayer.update_weights.pop_loop remaining q = some (q.drop remaining) := by
  intro remaining
  induction remaining with
  | zero => intro q _; rfl
  | succ n ih =>
    intro q h
    cases q with
    | nil => simp at h
    | cons a q =>
      simp only [FlowLayer.update_weights.pop_loop, List.drop_succ_cons]
      exact ih q (by simpa using h)

theorem FlowLayer.update_weights.pop_loop_inv :
    ∀ (remaining : Nat) (q r : List MatrixXd),
      FlowLayer.update_weights.pop_loop remaining q = some r →
      remaining ≤ q.length ∧ r = q.drop remaining := by
  intro remaining
  induction remaining with
  | zero => intro q r h; simp [FlowLayer.update_weights.pop_loop] at h; simp [h]
  | succ n ih =>
    intro q r h
    cases q with
    | nil => simp [FlowLayer.update_weights.pop_loop] at h
    | cons a q =>
      simp only [FlowLayer.update_weights.pop_loop] at h
      obtain ⟨h1, h2⟩ := ih q r h
      exact ⟨by simpa using h1, by simpa using h2⟩

/-- State that `update_weights` leaves when it returns, given the sums `res` of its loop. -/
theorem FlowLayer.update_weights_eq (s : FlowLayer) (lr : ℚ) (front W b a : MatrixXd)
    (res : MatrixXd × VectorXd)
    (hfront : s.dz_values.head? = some front)
    (hsum : FlowLayer.update_weights.sum_loop s.dz_values s.update_after 0
      (MatrixXd.Zero front.rows front.cols, MatrixXd.Zero front.rows 1) = some res)
    (hW : s.weight_stash.getLast? = some W) (hb : s.bias_stash.getLast? = some b)
    (ha : s.received_activations.head? = some a)
    (hrecv : s.update_after ≤ s.received_activations.length) :
    s.update_weights lr = .returned ()
      { s with
        weight_stash := s.weight_stash ++
          [W.sub ((MatrixXd.smul lr (res.1.divScalar (s.update_after : ℚ))).mul a.transpose)]
        bias_stash := s.bias_stash ++
          [b.sub (MatrixXd.smul lr (res.2.divScalar (s.update_after : ℚ)))]
        dz_values := s.dz_values.drop s.update_after
        received_activations := s.received_activations.drop s.update_after } := by
  simp [FlowLayer.update_weights, hfront, hsum, hW, hb, ha,
    FlowLayer.update_weights.pop_loop_eq _ _ hrecv]

theorem FlowLayer.update_weights_inv {s s1 : FlowLayer} {lr : ℚ} {v : Unit}
    (h : s.update_weights lr = .returned v s1) :
    ∃ W b, s1 = { s with
        weight_stash := s.weight_stash ++ [W]
        bias_stash := s.bias_stash ++ [b]
        dz_values := s.dz_values.drop s.update_after
        received_activations := s.received_activations.drop s.update_after } ∧
      s.update_after ≤ s.dz_values.length ∧
      s.update_after ≤ s.received_activations.length := by
  cases hfront : s.dz_values.head? with
  | none => simp [FlowLayer.update_weights, hfront] at h
  | some front =>
    cases hsum : FlowLayer.update_weights.sum_loop s.dz_values s.update_after 0
      (MatrixXd.Zero front.rows front.cols, MatrixXd.Zero front.rows 1) with
    | none => simp [FlowLayer.update_weights, hfront, hsum] at h
    | some res =>
      have hdz : s.update_after ≤ s.dz_values.length := by
        by_contra hlt
        have := FlowLayer.update_weights.sum_loop_none s.dz_values s.update_after 0
          (MatrixXd.Zero front.rows front.cols, MatrixXd.Zero front.rows 1)
          (Nat.zero_le _) (by omega)
        rw [this] at hsum
        simp at hsum
      cases hW : s.weight_stash.getLast? with
      | none => simp [FlowLayer.update_weights, hfront, hsum, hW] at h
      | some W =>
        cases hb : s.bias_stash.getLast? with
        | none => simp [FlowLayer.update_weights, hfront, hsum, hW, hb] at h
        | some b =>
          cases ha : s.received_activations.head? with
          | none => simp [FlowLayer.update_weights, hfront, hsum, hW, hb, ha] at h
          | some a =>
            cases hq : FlowLayer.update_weights.pop_loop s.update_after
              s.received_activations with
            | none => simp [FlowLayer.update_weights, hfront, hsum, hW, hb, ha, hq] at h
            | some q =>
              obtain ⟨hle, hq2⟩ := FlowLayer.update_weights.pop_loop_inv _ _ _ hq
              simp only [FlowLayer.update_weights, hfront, hsum, hW, hb, ha, hq,
                Completion.returned.injEq] at h
              exact ⟨_, _, by rw [← h.2, hq2], hdz, hle⟩

/-- With fewer than `update_after` pending gradients no execution of `update_weights` is
defined: `front()` of an empty vector, or `dz_values[i]` past the end. -/
theorem FlowLayer.update_weights_short (s : FlowLayer) (lr : ℚ)
    (h : s.dz_values.length < s.update_after) : s.update_weights lr = .undefined := by
  cases hfront : s.dz_values.head? with
  | none => simp [FlowLayer.update_weights, hfront]
  | some front =>
    simp [FlowLayer.update_weights, hfront,
      FlowLayer.update_weights.sum_loop_none s.dz_values s.update_after 0 _
        (Nat.zero_le _) (by omega : s.dz_values.length < 0 + s.update_after)]

/-! ## Preservation of the bookkeeping relations -/

theorem FlowLayer.Consistent.new (n : Nat) (sh : Shape) (act : ActivationFunc) (u : Nat)
    (rnd : Nat → Nat → ℚ) : (FlowLayer.new n sh act u rnd).Consistent where
  weights := by simp [FlowLayer.new]
  biases := by simp [FlowLayer.new]
  z_len := by simp [FlowLayer.new]
  received_len := by simp [FlowLayer.new]
  stash := by intro k hk; simp [FlowLayer.new] at hk

theorem FlowLayer.Consistent.latest {s : FlowLayer} (h : s.Consistent) :
    ∃ W b, s.weight_stash.getLast? = some W ∧ s.bias_stash.getLast? = some b := by
  refine ⟨s.weight_stash.getLast h.weights, s.bias_stash.getLast h.biases, ?_, ?_⟩
  · exact List.getLast?_eq_getLast _ h.weights
  · exact List.getLast?_eq_getLast _ h.biases

theorem FlowLayer.Consistent.after_forward_prop {s s1 : FlowLayer} {x a : MatrixXd}
    (h : s.Consistent) (hret : s.forward_prop x = .returned a s1) : s1.Consistent := by
  obtain ⟨W, b, hW, hb⟩ := h.latest
  rw [FlowLayer.forward_prop_eq s x W b hW hb] at hret
  simp only [Completion.returned.injEq] at hret
  obtain ⟨-, rfl⟩ := hret
  have hpos : 0 < s.weight_stash.length := List.length_pos.mpr h.weights
  refine ⟨h.weights, h.biases, ?_, ?_, ?_⟩
  · have := h.z_len
    simp only [List.length_append, List.length_singleton]
    omega
  · have := h.received_len
    simp only [List.length_append, List.length_singleton]
    omega
  · intro k hk
    simp only [stash_assign]
    by_cases hkf : k = s.micro_batch_num_forw
    · exact ⟨s.weight_stash.length - 1, by simp [hkf], by omega⟩
    · obtain ⟨g, hg, hlt⟩ := h.stash k (by simp only at hk; omega)
      exact ⟨g, by simp [hkf, hg], hlt⟩

theorem FlowLayer.Consistent.after_back_prop {der : ActivationFunc → ActivationFunc}
    {s s1 : FlowLayer} {g grad : MatrixXd}
    (h : s.Consistent) (hret : s.back_prop der g = .returned grad s1) : s1.Consistent := by
  obtain ⟨z, rest, hz, rfl⟩ := FlowLayer.back_prop_inv hret
  have hzl := h.z_len
  have hrl := h.received_len
  rw [hz] at hzl
  simp only [List.length_cons] at hzl
  obtain ⟨gen, hgen, hlt⟩ := h.stash s.micro_batch_num_back (by omega)
  refine ⟨h.weights, h.biases, ?_, ?_, ?_⟩
  · simp only; omega
  · simp only [List.length_append, List.length_singleton]; omega
  · intro k hk
    simp only [stash_index, hgen]
    exact h.stash k hk

theorem FlowLayer.Consistent.after_update_weights {s s1 : FlowLayer} {lr : ℚ} {v : Unit}
    (h : s.Consistent) (hret : s.update_weights lr = .returned v s1) : s1.Consistent := by
  obtain ⟨W, b, rfl, hdz, hrecv⟩ := FlowLayer.update_weights_inv hret
  have hzl := h.z_len
  have hrl := h.received_len
  refine ⟨by simp, by simp, hzl, ?_, ?_⟩
  · simp only [List.length_drop]; omega
  · intro k hk
    obtain ⟨g, hg, hlt⟩ := h.stash k hk
    exact ⟨g, hg, by simp only [List.length_append, List.length_singleton]; omega⟩

theorem FlowLayer.Consistent.after_step {der : ActivationFunc → ActivationFunc} {s s1 : FlowLayer}
    {c : Call} (h : s.Consistent) (hstep : s.step der c = some s1) : s1.Consistent := by
  cases c with
  | forward_prop x =>
    obtain ⟨a, ha⟩ := Completion.state?_eq_some hstep
    exact h.after_forward_prop ha
  | back_prop g =>
    obtain ⟨a, ha⟩ := Completion.state?_eq_some hstep
    exact h.after_back_prop ha
  | update_weights lr =>
    obtain ⟨a, ha⟩ := Completion.state?_eq_some hstep
    exact h.after_update_weights ha

theorem FlowLayer.run_cons {der : ActivationFunc → ActivationFunc} {s s2 : FlowLayer}
    {c : Call} {cs : List Call} (h : FlowLayer.run der s (c :: cs) = some s2) :
    ∃ s1, s.step der c = some s1 ∧ FlowLayer.run der s1 cs = some s2 := by
  simp only [FlowLayer.run] at h
  split at h
  · rename_i s1 hs1
    exact ⟨s1, hs1, h⟩
  · simp at h

theorem FlowLayer.Consistent.after_run {der : ActivationFunc → ActivationFunc} {cs : List Call} :
    ∀ {s s1 : FlowLayer}, s.Consistent → FlowLayer.run der s cs = some s1 → s1.Consistent := by
  induction cs with
  | nil =>
    intro s s1 h hrun
    simp only [FlowLayer.run, Option.some.injEq] at hrun
    exact hrun ▸ h
  | cons c cs ih =>
    intro s s1 h hrun
    obtain ⟨s', hstep, hrest⟩ := FlowLayer.run_cons hrun
    exact ih (h.after_step hstep) hrest

theorem FlowLayer.Reachable.consistent {der : ActivationFunc → ActivationFunc} {s : FlowLayer}
    (h : s.Reachable der) : s.Consistent := by
  obtain ⟨n, sh, act, u, rnd, calls, hrun⟩ := h
  exact (FlowLayer.Consistent.new n sh act u rnd).after_run hrun

/-! ## Counting calls -/

theorem FlowLayer.forward_prop_state {s s1 : FlowLayer} {x a : MatrixXd}
    (h : s.forward_prop x = .returned a s1) :
    ∃ W b, s.weight_stash.getLast? = some W ∧ s.bias_stash.getLast? = some b ∧
      a = s.activ_func ((W.mul x).colwiseAdd b) ∧
      s1 = { s with
        received_activations := s.received_activations ++ [x]
        z_value := (W.mul x).colwiseAdd b
        z_values := s.z_values ++ [(W.mul x).colwiseAdd b]
        a_value := s.activ_func ((W.mul x).colwiseAdd b)
        stash_map := stash_assign s.stash_map s.micro_batch_num_forw (s.weight_stash.length - 1)
        micro_batch_num_forw := s.micro_batch_num_forw + 1 } := by
  obtain ⟨W, b, hW, hb⟩ := FlowLayer.forward_prop_inv h
  rw [FlowLayer.forward_prop_eq s x W b hW hb] at h
  simp only [Completion.returned.injEq] at h
  exact ⟨W, b, hW, hb, h.1.symm, h.2.symm⟩

theorem FlowLayer.step_counts {der : ActivationFunc → ActivationFunc} {s s1 : FlowLayer}
    {c : Call} (h : s.step der c = some s1) :
    s1.micro_batch_num_forw = s.micro_batch_num_forw + countForward [c] ∧
      s1.micro_batch_num_back = s.micro_batch_num_back + countBackward [c] := by
  cases c with
  | forward_prop x =>
    obtain ⟨a, ha⟩ := Completion.state?_eq_some h
    obtain ⟨W, b, -, -, -, rfl⟩ := FlowLayer.forward_prop_state ha
    simp [countForward, countBackward]
  | back_prop g =>
    obtain ⟨a, ha⟩ := Completion.state?_eq_some h
    obtain ⟨z, rest, -, rfl⟩ := FlowLayer.back_prop_inv ha
    simp [countForward, countBackward]
  | update_weights lr =>
    obtain ⟨a, ha⟩ := Completion.state?_eq_some h
    obtain ⟨W, b, rfl, -, -⟩ := FlowLayer.update_weights_inv ha
    simp [countForward, countBackward]

theorem countForward_cons (c : Call) (cs : List Call) :
    countForward (c :: cs) = countForward [c] + countForward cs := by
  cases c <;> simp [countForward, Nat.add_comm]

theorem countBackward_cons (c : Call) (cs : List Call) :
    countBackward (c :: cs) = countBackward [c] + countBackward cs := by
  cases c <;> simp [countBackward, Nat.add_comm]

theorem countBackward_append (cs ds : List Call) :
    countBackward (cs ++ ds) = countBackward cs + countBackward ds := by
  induction cs with
  | nil => simp [countBackward]
  | cons c cs ih =>
    rw [List.cons_append, countBackward_cons, ih, countBackward_cons c cs]
    omega

theorem FlowLayer.run_counts {der : ActivationFunc → ActivationFunc} {cs : List Call} :
    ∀ {s s1 : FlowLayer}, FlowLayer.run der s cs = some s1 →
      s1.micro_batch_num_forw = s.micro_batch_num_forw + countForward cs ∧
        s1.micro_batch_num_back = s.micro_batch_num_back + countBackward cs := by
  induction cs with
  | nil =>
    intro s s1 h
    simp only [FlowLayer.run, Option.some.injEq] at h
    subst h
    simp [countForward, countBackward]
  | cons c cs ih =>
    intro s s1 h
    obtain ⟨s', hstep, hrest⟩ := FlowLayer.run_cons h
    have h1 := FlowLayer.step_counts hstep
    have h2 := ih hrest
    rw [countForward_cons, countBackward_cons]
    omega

/-! ## A micro-batch in flight -/

theorem stash_index_keeps (m : Nat → Option Nat) (key k gen : Nat) (h : m k = some gen) :
    (stash_index m key).2 k = some gen := by
  unfold stash_index
  split
  · exact h
  · rename_i hnone
    have hne : k ≠ key := by
      intro hk
      rw [hk, hnone] at h
      simp at h
    simp [stash_assign, hne, h]

theorem FlowLayer.Tracked.tracked_step {der : ActivationFunc → ActivationFunc} {k gen : Nat}
    {z W : MatrixXd} {s s1 : FlowLayer} {c : Call} (h : s.Tracked k z W gen)
    (hstep : s.step der c = some s1) (hk : s1.micro_batch_num_back ≤ k) :
    s1.Tracked k z W gen := by
  have hq := h.queued
  have hqlt : k - s.micro_batch_num_back < s.z_values.length :=
    (List.getElem?_eq_some.1 hq).1
  have hwlt : gen < s.weight_stash.length := (List.getElem?_eq_some.1 h.stored).1
  cases c with
  | forward_prop x =>
    obtain ⟨a, ha⟩ := Completion.state?_eq_some hstep
    obtain ⟨W0, b0, -, -, -, rfl⟩ := FlowLayer.forward_prop_state ha
    refine ⟨h.behind, ?_, ?_, ?_, h.stored⟩
    · have := h.ahead
      simp only
      omega
    · simp only
      rw [List.getElem?_append_left hqlt]
      exact hq
    · have hne : k ≠ s.micro_batch_num_forw := Nat.ne_of_lt h.ahead
      simp [stash_assign, hne, h.mapped]
  | back_prop g =>
    obtain ⟨a, ha⟩ := Completion.state?_eq_some hstep
    obtain ⟨z0, rest, hz, rfl⟩ := FlowLayer.back_prop_inv ha
    simp only at hk
    refine ⟨by simp only; omega, h.ahead, ?_, ?_, h.stored⟩
    · simp only
      rw [hz] at hq
      have hidx : k - s.micro_batch_num_back = (k - (s.micro_batch_num_back + 1)) + 1 := by
        omega
      rw [hidx, List.getElem?_cons_succ] at hq
      exact hq
    · exact stash_index_keeps _ _ _ _ h.mapped
  | update_weights lr =>
    obtain ⟨a, ha⟩ := Completion.state?_eq_some hstep
    obtain ⟨W1, b1, rfl, -, -⟩ := FlowLayer.update_weights_inv ha
    refine ⟨h.behind, h.ahead, hq, h.mapped, ?_⟩
    simp only
    rw [List.getElem?_append_left hwlt]
    exact h.stored

theorem FlowLayer.Tracked.tracked_run {der : ActivationFunc → ActivationFunc} {k gen : Nat}
    {z W : MatrixXd} {cs : List Call} :
    ∀ {s s1 : FlowLayer}, s.Tracked k z W gen → FlowLayer.run der s cs = some s1 →
      s1.micro_batch_num_back ≤ k → s1.Tracked k z W gen := by
  induction cs with
  | nil =>
    intro s s1 h hrun _
    simp only [FlowLayer.run, Option.some.injEq] at hrun
    exact hrun ▸ h
  | cons c cs ih =>
    intro s s1 h hrun hk
    obtain ⟨s', hstep, hrest⟩ := FlowLayer.run_cons hrun
    have hmono := (FlowLayer.run_counts hrest).2
    exact ih (h.tracked_step hstep (by omega)) hrest hk

/-- After `forward_prop` the new micro-batch is in flight, with the latest weights stashed. -/
theorem FlowLayer.Tracked.tracked_forward_prop {s s1 : FlowLayer} {x a W : MatrixXd}
    (hc : s.Consistent) (hW : s.weight_stash.getLast? = some W)
    (h : s.forward_prop x = .returned a s1) :
    s1.Tracked s.micro_batch_num_forw s1.z_value W (s.weight_stash.length - 1) := by
  obtain ⟨W0, b0, hW0, -, -, rfl⟩ := FlowLayer.forward_prop_state h
  have hzl := hc.z_len
  refine ⟨by simp only; omega, by simp only; omega, ?_, ?_, ?_⟩
  · simp only
    have hidx : s.micro_batch_num_forw - s.micro_batch_num_back = s.z_values.length := by omega
    rw [hidx, List.getElem?_append_right (Nat.le_refl _)]
    simp
  · simp [stash_assign]
  · simp only
    rw [← List.getLast?_eq_getElem?]
    exact hW

/-- Situation in which the backward call of a micro-batch finds the stage: the head of the
z-queue is the `z` of its forward call, and the stash maps the backward counter to the
generation that was the latest one at its forward call. -/
theorem FlowLayer.matching_backward {der : ActivationFunc → ActivationFunc}
    {s1 s1f s2 : FlowLayer} {x a : MatrixXd} {mid : List Call} (hc : s1.Consistent)
    (hf : s1.forward_prop x = .returned a s1f) (hrun : FlowLayer.run der s1f mid = some s2)
    (hk : s2.micro_batch_num_back = s1.micro_batch_num_forw) :
    ∃ W rest, s1.weight_stash.getLast? = some W ∧ s2.z_values = s1f.z_value :: rest ∧
      s2.stash_map s2.micro_batch_num_back = some (s1.weight_stash.length - 1) ∧
      s2.weight_stash[s1.weight_stash.length - 1]? = some W := by
  obtain ⟨W, b, hW, -⟩ := hc.latest
  have ht := (FlowLayer.Tracked.tracked_forward_prop hc hW hf).tracked_run hrun (by omega)
  refine ⟨W, s2.z_values.tail, hW, ?_, ?_, ht.stored⟩
  · have hq := ht.queued
    rw [hk, Nat.sub_self] at hq
    cases hz : s2.z_values with
    | nil => rw [hz] at hq; simp at hq
    | cons z0 rest =>
      rw [hz] at hq
      simp only [List.getElem?_cons_zero, Option.some.injEq] at hq
      simp [hq]
  · rw [hk]
    exact ht.mapped

/-- Split of a run at a `forward_prop` call, with the counts of the calls before it. -/
theorem FlowLayer.run_split {der : ActivationFunc → ActivationFunc} {s0 s1 s2 : FlowLayer}
    {pre mid : List Call} {x : MatrixXd}
    (h0 : s0.micro_batch_num_forw = 0 ∧ s0.micro_batch_num_back = 0)
    (hpre : FlowLayer.run der s0 pre = some s1)
    (hmid : FlowLayer.run der s1 (Call.forward_prop x :: mid) = some s2)
    (hk : countBackward (pre ++ Call.forward_prop x :: mid) = countForward pre) :
    ∃ a s1f, s1.forward_prop x = .returned a s1f ∧ FlowLayer.run der s1f mid = some s2 ∧
      s2.micro_batch_num_back = s1.micro_batch_num_forw := by
  obtain ⟨s1f, hstep, hrest⟩ := FlowLayer.run_cons hmid
  obtain ⟨a, ha⟩ := Completion.state?_eq_some hstep
  refine ⟨a, s1f, ha, hrest, ?_⟩
  have c1 := FlowLayer.run_counts hpre
  have c2 := FlowLayer.run_counts hmid
  rw [countBackward_append] at hk
  omega

/-- In a consistent state with `update_after ≥ 1` and at least `update_after` pending
gradients, `update_weights` returns, and this is the state it leaves. -/
theorem FlowLayer.Consistent.update_weights_returns {s : FlowLayer} (hc : s.Consistent)
    (learning_rate : ℚ) (hu : 1 ≤ s.update_after)
    (hpending : s.update_after ≤ s.dz_values.length) :
    ∃ W b, s.update_weights learning_rate = .returned ()
      { s with
        weight_stash := s.weight_stash ++ [W]
        bias_stash := s.bias_stash ++ [b]
        dz_values := s.dz_values.drop s.update_after
        received_activations := s.received_activations.drop s.update_after } := by
  obtain ⟨W, b, hW, hb⟩ := hc.latest
  have hrl := hc.received_len
  have hzl := hc.z_len
  have hrecv : s.update_after ≤ s.received_activations.length := by omega
  cases hdz : s.dz_values with
  | nil => rw [hdz] at hpending; simp at hpending; omega
  | cons front dzs =>
    cases hra : s.received_activations with
    | nil => rw [hra] at hrecv; simp at hrecv; omega
    | cons a ras =>
      obtain ⟨res, hres⟩ := FlowLayer.update_weights.sum_loop_some s.dz_values s.update_after 0
        (MatrixXd.Zero front.rows front.cols, MatrixXd.Zero front.rows 1) (by omega)
      have h := FlowLayer.update_weights_eq s learning_rate front W b a res (by simp [hdz]) hres
        hW hb (by simp [hra]) hrecv
      rw [hdz, hra] at h
      exact ⟨_, _, h⟩

/-! ## Claims about one stage -/

/-- C1 (stash consistency).  A stage is constructed and driven by any calls `pre`, then
`forward_prop x` runs, then any calls `mid`, all of them returning, and the next `back_prop`
is the one that matches this `forward_prop` (as many `back_prop` calls came before it as
`forward_prop` calls came before `forward_prop x`).  Then that `back_prop` returns, the
generation it looks up in the stash holds the weight matrix `W` that was the latest one when
`forward_prop x` ran, and the gradient it returns is `W^T * dz`, whatever versions
`update_weights` calls in `mid` appended. -/
theorem stash_consistency (der : ActivationFunc → ActivationFunc) (curr_neurons : Nat)
    (input_shape : Shape) (activation : ActivationFunc) (update_num : Nat)
    (random : Nat → Nat → ℚ) (pre mid : List Call) (x g : MatrixXd) (s1 s2 : FlowLayer)
    (hpre : FlowLayer.run der
      (FlowLayer.new curr_neurons input_shape activation update_num random) pre = some s1)
    (hmid : FlowLayer.run der s1 (Call.forward_prop x :: mid) = some s2)
    (hk : countBackward (pre ++ Call.forward_prop x :: mid) = countForward pre) :
    ∃ W gen grad s3, s1.weight_stash.getLast? = some W ∧
      s2.stash_map s2.micro_batch_num_back = some gen ∧
      s2.weight_stash[gen]? = some W ∧
      s2.back_prop der g = .returned grad s3 ∧
      grad = W.transpose.mul s3.dz_value := by
  have hc : s1.Consistent := (FlowLayer.Consistent.new _ _ _ _ _).after_run hpre
  obtain ⟨a, s1f, hf, hrun, hback⟩ := FlowLayer.run_split ⟨rfl, rfl⟩ hpre hmid hk
  obtain ⟨W, rest, hW, hz, hmap, hstored⟩ := FlowLayer.matching_backward hc hf hrun hback
  have hb := FlowLayer.back_prop_eq der s2 g s1f.z_value W rest _ hz hmap hstored
  exact ⟨W, _, _, _, hW, hmap, hstored, hb, rfl⟩

/-- C2 (FIFO ordering).  In the situation of C1 (any calls before, `forward_prop x`, any
calls in between, then the matching `back_prop`): the `z` at the front of the z-queue, which
that `back_prop` pops into `z_value` and from which it computes `dz`, is the `z` that
`forward_prop x` computed and pushed. -/
theorem fifo_ordering (der : ActivationFunc → ActivationFunc) (curr_neurons : Nat)
    (input_shape : Shape) (activation : ActivationFunc) (update_num : Nat)
    (random : Nat → Nat → ℚ) (pre mid : List Call) (x g : MatrixXd) (s1 s2 : FlowLayer)
    (hpre : FlowLayer.run der
      (FlowLayer.new curr_neurons input_shape activation update_num random) pre = some s1)
    (hmid : FlowLayer.run der s1 (Call.forward_prop x :: mid) = some s2)
    (hk : countBackward (pre ++ Call.forward_prop x :: mid) = countForward pre) :
    ∃ a s1f grad s3, s1.forward_prop x = .returned a s1f ∧
      s2.z_values.head? = some s1f.z_value ∧
      s2.back_prop der g = .returned grad s3 ∧
      s3.z_value = s1f.z_value ∧
      s3.z_values = s2.z_values.tail ∧
      s3.dz_value = g.cwiseProduct (der s2.activ_func s1f.z_value) := by
  have hc : s1.Consistent := (FlowLayer.Consistent.new _ _ _ _ _).after_run hpre
  obtain ⟨a, s1f, hf, hrun, hback⟩ := FlowLayer.run_split ⟨rfl, rfl⟩ hpre hmid hk
  obtain ⟨W, rest, hW, hz, hmap, hstored⟩ := FlowLayer.matching_backward hc hf hrun hback
  refine ⟨a, s1f, _, _, hf, by simp [hz],
    FlowLayer.back_prop_eq der s2 g s1f.z_value W rest _ hz hmap hstored, rfl, by simp [hz], rfl⟩

/-- C3.  In every state that a stage with `update_after ≥ 1` reaches and that holds at least
`update_after` pending gradients, `update_weights` returns; it appends exactly one weight
matrix and one bias vector to the stash, removes the `update_after` oldest entries of
`dz_values` and of `received_activations` (the rest keeps its order) and changes nothing
else. -/
theorem update_weights_appends_one_retires_oldest (der : ActivationFunc → ActivationFunc)
    (s : FlowLayer) (learning_rate : ℚ) (hreach : s.Reachable der)
    (hu : 1 ≤ s.update_after) (hpending : s.update_after ≤ s.dz_values.length) :
    ∃ W b, s.update_weights learning_rate = .returned ()
      { s with
        weight_stash := s.weight_stash ++ [W]
        bias_stash := s.bias_stash ++ [b]
        dz_values := s.dz_values.drop s.update_after
        received_activations := s.received_activations.drop s.update_after } := by
  exact hreach.consistent.update_weights_returns learning_rate hu hpending

/-- Witness of C1: a forward / backward pair, then `forward_prop`, then an `update_weights`
that appends a newer version before the matching `back_prop`. -/
theorem stash_consistency_witness :
    ∃ s1 s2,
      FlowLayer.run linear_der (FlowLayer.new 1 (1, 1) linear 1 (fun _ _ => 2))
        [Call.forward_prop (MatrixXd.scalar 3), Call.back_prop (MatrixXd.scalar 1)] = some s1 ∧
      FlowLayer.run linear_der s1
        [Call.forward_prop (MatrixXd.scalar 5), Call.update_weights 1] = some s2 ∧
      ∃ W gen grad s3, s1.weight_stash.getLast? = some W ∧
        s2.stash_map s2.micro_batch_num_back = some gen ∧
        s2.weight_stash[gen]? = some W ∧
        s2.back_prop linear_der (MatrixXd.scalar 1) = .returned grad s3 ∧
        grad = W.transpose.mul s3.dz_value :=
  ⟨_, _, rfl, rfl,
    stash_consistency linear_der 1 (1, 1) linear 1 (fun _ _ => 2)
      [Call.forward_prop (MatrixXd.scalar 3), Call.back_prop (MatrixXd.scalar 1)]
      [Call.update_weights 1] (MatrixXd.scalar 5) (MatrixXd.scalar 1) _ _ rfl rfl rfl⟩

/-- Witness of C2: two micro-batches in flight, the `back_prop` of the second one runs after
the `back_prop` of the first. -/
theorem fifo_ordering_witness :
    ∃ s1 s2,
      FlowLayer.run linear_der (FlowLayer.new 1 (1, 1) linear 1 (fun _ _ => 2))
        [Call.forward_prop (MatrixXd.scalar 3)] = some s1 ∧
      FlowLayer.run linear_der s1
        [Call.forward_prop (MatrixXd.scalar 5), Call.back_prop (MatrixXd.scalar 1),
          Call.update_weights 1] = some s2 ∧
      ∃ a s1f grad s3, s1.forward_prop (MatrixXd.scalar 5) = .returned a s1f ∧
        s2.z_values.head? = some s1f.z_value ∧
        s2.back_prop linear_der (MatrixXd.scalar 7) = .returned grad s3 ∧
        s3.z_value = s1f.z_value ∧
        s3.z_values = s2.z_values.tail ∧
        s3.dz_value = (MatrixXd.scalar 7).cwiseProduct (linear_der s2.activ_func s1f.z_value) :=
  ⟨_, _, rfl, rfl,
    fifo_ordering linear_der 1 (1, 1) linear 1 (fun _ _ => 2)
      [Call.forward_prop (MatrixXd.scalar 3)]
      [Call.back_prop (MatrixXd.scalar 1), Call.update_weights 1]
      (MatrixXd.scalar 5) (MatrixXd.scalar 7) _ _ rfl rfl rfl⟩

/-- Witness of C3: a stage with `update_after = 2` after three forward and two backward
calls. -/
theorem update_weights_appends_one_retires_oldest_witness :
    ∃ s : FlowLayer, s.Reachable linear_der ∧ 1 ≤ s.update_after ∧
      s.update_after ≤ s.dz_values.length ∧
      ∃ W b, s.update_weights 1 = .returned ()
        { s with
          weight_stash := s.weight_stash ++ [W]
          bias_stash := s.bias_stash ++ [b]
          dz_values := s.dz_values.drop s.update_after
          received_activations := s.received_activations.drop s.update_after } :=
  ⟨_, ⟨1, (1, 1), linear, 2, fun _ _ => 2,
      [Call.forward_prop (MatrixXd.scalar 3), Call.forward_prop (MatrixXd.scalar 5),
        Call.back_prop (MatrixXd.scalar 1), Call.forward_prop (MatrixXd.scalar 4),
        Call.back_prop (MatrixXd.scalar 1)], rfl⟩,
    by decide, by decide,
    update_weights_appends_one_retires_oldest linear_der _ 1
      ⟨1, (1, 1), linear, 2, fun _ _ => 2,
        [Call.forward_prop (MatrixXd.scalar 3), Call.forward_prop (MatrixXd.scalar 5),
          Call.back_prop (MatrixXd.scalar 1), Call.forward_prop (MatrixXd.scalar 4),
          Call.back_prop (MatrixXd.scalar 1)], rfl⟩
      (by decide) (by decide)⟩

/-! ## The scheduler nodes of a stage -/

theorem StageNodes.node_run_cons {der : ActivationFunc → ActivationFunc} {lr : ℚ}
    {st st2 : StageNodes} {e : NodeEvent} {es : List NodeEvent}
    (h : StageNodes.run der lr st (e :: es) = some st2) :
    ∃ st1, st.step der lr e = some st1 ∧ StageNodes.run der lr st1 es = some st2 := by
  simp only [StageNodes.run] at h
  split at h
  · rename_i st1 hst1
    exact ⟨st1, hst1, h⟩
  · simp at h

theorem forwardNode_inv {st st1 : StageNodes} {m out : MatrixXd}
    (h : forwardNode st m = some (out, st1)) :
    (isPoisonPill m = true ∧ out = m ∧ st1 = st) ∨
      (isPoisonPill m = false ∧
        ∃ layer, st.layer.forward_prop m = .returned out layer ∧
          st1 = { st with layer := layer }) := by
  unfold forwardNode at h
  by_cases hp : isPoisonPill m = true
  · simp only [hp, if_true, Option.some.injEq, Prod.mk.injEq] at h
    exact Or.inl ⟨hp, h.1.symm, h.2.symm⟩
  · simp only [hp] at h
    right
    refine ⟨by simpa using hp, ?_⟩
    cases hf : st.layer.forward_prop m with
    | returned a layer =>
      simp only [hf, Bool.false_eq_true, if_false, Option.some.injEq, Prod.mk.injEq] at h
      exact ⟨layer, by rw [h.1], h.2.symm⟩
    | raised e l => simp [hf] at h
    | undefined => simp [hf] at h

theorem backwardNode_inv {der : ActivationFunc → ActivationFunc} {st st1 : StageNodes}
    {m out : MatrixXd} (h : backwardNode der st m = some (out, st1)) :
    (isPoisonPill m = true ∧ out = m ∧ st1 = st) ∨
      (isPoisonPill m = false ∧
        ∃ layer, st.layer.back_prop der m = .returned out layer ∧
          st1 = if st.microBatchCounter + 1 = 8 then
              { layer := layer, microBatchCounter := 0
                weightUpdateInbox := st.weightUpdateInbox + 1 }
            else
              { layer := layer, microBatchCounter := st.microBatchCounter + 1
                weightUpdateInbox := st.weightUpdateInbox }) := by
  unfold backwardNode at h
  by_cases hp : isPoisonPill m = true
  · simp only [hp, if_true, Option.some.injEq, Prod.mk.injEq] at h
    exact Or.inl ⟨hp, h.1.symm, h.2.symm⟩
  · simp only [hp] at h
    right
    refine ⟨by simpa using hp, ?_⟩
    cases hf : st.layer.back_prop der m with
    | returned a layer =>
      simp only [hf, Bool.false_eq_true, if_false] at h
      by_cases hc : st.microBatchCounter + 1 = 8
      · simp only [hc, if_true, Option.some.injEq, Prod.mk.injEq] at h
        exact ⟨layer, by rw [h.1], by simp [hc, ← h.2]⟩
      · simp only [hc, if_false, Option.some.injEq, Prod.mk.injEq] at h
        exact ⟨layer, by rw [h.1], by simp [hc, ← h.2]⟩
    | raised e l => simp [hf] at h
    | undefined => simp [hf] at h

theorem StageNodes.Cadence.cadence_step {der : ActivationFunc → ActivationFunc} {lr : ℚ}
    {st st1 : StageNodes} {n : Nat} {e : NodeEvent} (h : st.Cadence n)
    (hno : noWeightUpdate [e] = true) (hstep : st.step der lr e = some st1) :
    st1.Cadence (n + countRealBackward [e]) := by
  cases e with
  | forward m =>
    obtain ⟨out, hout⟩ : ∃ out, forwardNode st m = some (out, st1) := by
      cases hfn : forwardNode st m with
      | none => simp [StageNodes.step, hfn] at hstep
      | some r =>
        simp only [StageNodes.step, hfn, Option.map_some', Option.some.injEq] at hstep
        exact ⟨r.1, by rw [← hstep]⟩
    rcases forwardNode_inv hout with ⟨-, -, rfl⟩ | ⟨-, layer, hf, rfl⟩
    · simpa [countRealBackward] using h
    · have hc := h.consistent.after_forward_prop hf
      obtain ⟨W, b, -, -, -, rfl⟩ := FlowLayer.forward_prop_state hf
      exact ⟨hc, h.update_after, h.pending, h.versions, h.counter, h.inbox⟩
  | backward m =>
    obtain ⟨out, hout⟩ : ∃ out, backwardNode der st m = some (out, st1) := by
      cases hfn : backwardNode der st m with
      | none => simp [StageNodes.step, hfn] at hstep
      | some r =>
        simp only [StageNodes.step, hfn, Option.map_some', Option.some.injEq] at hstep
        exact ⟨r.1, by rw [← hstep]⟩
    rcases backwardNode_inv hout with ⟨hp, -, rfl⟩ | ⟨hp, layer, hf, rfl⟩
    · simpa [countRealBackward, hp] using h
    · have hc := h.consistent.after_back_prop hf
      obtain ⟨z, rest, -, rfl⟩ := FlowLayer.back_prop_inv hf
      have h1 := h.counter
      have h2 := h.inbox
      have h3 := h.pending
      simp only [countRealBackward, hp, Bool.false_eq_true, if_false]
      by_cases hcnt : st.microBatchCounter + 1 = 8
      · simp only [hcnt, if_true]
        exact ⟨hc, h.update_after, by simp [h3], h.versions, by simp only; omega,
          by simp only; omega⟩
      · simp only [hcnt, if_false]
        exact ⟨hc, h.update_after, by simp [h3], h.versions, by simp only; omega,
          by simp only; omega⟩
  | weightUpdate => simp [noWeightUpdate] at hno

theorem noWeightUpdate_cons {e : NodeEvent} {es : List NodeEvent}
    (h : noWeightUpdate (e :: es) = true) :
    noWeightUpdate [e] = true ∧ noWeightUpdate es = true := by
  cases e <;> simp_all [noWeightUpdate]

theorem countRealBackward_cons (e : NodeEvent) (es : List NodeEvent) :
    countRealBackward (e :: es) = countRealBackward [e] + countRealBackward es := by
  cases e with
  | forward m => simp [countRealBackward]
  | backward m =>
    by_cases hp : isPoisonPill m = true
    · simp [countRealBackward, hp]
    · simp [countRealBackward, hp, Nat.add_comm]
  | weightUpdate => simp [countRealBackward]

theorem StageNodes.Cadence.cadence_run {der : ActivationFunc → ActivationFunc} {lr : ℚ}
    {es : List NodeEvent} :
    ∀ {st st1 : StageNodes} {n : Nat}, st.Cadence n → noWeightUpdate es = true →
      StageNodes.run der lr st es = some st1 → st1.Cadence (n + countRealBackward es) := by
  induction es with
  | nil =>
    intro st st1 n h _ hrun
    simp only [StageNodes.run, Option.some.injEq] at hrun
    subst hrun
    simpa [countRealBackward] using h
  | cons e es ih =>
    intro st st1 n h hno hrun
    obtain ⟨st', hstep, hrest⟩ := StageNodes.node_run_cons hrun
    obtain ⟨hno1, hno2⟩ := noWeightUpdate_cons hno
    have := ih (h.cadence_step hno1 hstep) hno2 hrest
    rw [countRealBackward_cons, ← Nat.add_assoc]
    exact this

theorem StageNodes.Cadence.cadence_fresh (n : Nat) (sh : Shape) (act : ActivationFunc)
    (rnd : Nat → Nat → ℚ) : (StageNodes.fresh (FlowLayer.new n sh act 8 rnd)).Cadence 0 where
  consistent := FlowLayer.Consistent.new n sh act 8 rnd
  update_after := rfl
  pending := rfl
  versions := rfl
  counter := rfl
  inbox := rfl

/-- C5 (update cadence, `update_after = 8`).  A stage as `run_pipeline` constructs it
(`update_after = 8`, counter zero) is driven by any forward- and backward-node executions
that return (so every backward found the `z` of its forward), with no weight-update node
execution among them.
* After 8 backward-node executions on real micro-batches, exactly one message is in the inbox
  of the weight-update node and 8 gradients are pending; running the weight-update node then
  returns, consumes the message, leaves no pending gradient and leaves two weight versions.
* After 7 such executions the inbox is empty, 7 gradients are pending and the stash still
  holds the initial version only. -/
theorem update_cadence_eight (der : ActivationFunc → ActivationFunc) (learning_rate : ℚ)
    (curr_neurons : Nat) (input_shape : Shape) (activation : ActivationFunc)
    (random : Nat → Nat → ℚ) (es : List NodeEvent) (st : StageNodes)
    (hno : noWeightUpdate es = true)
    (hrun : StageNodes.run der learning_rate
      (StageNodes.fresh (FlowLayer.new curr_neurons input_shape activation 8 random)) es
        = some st) :
    (countRealBackward es = 8 →
      st.weightUpdateInbox = 1 ∧ st.layer.dz_values.length = 8 ∧
      ∃ st1, weightUpdateNode learning_rate st = some st1 ∧ st1.weightUpdateInbox = 0 ∧
        st1.layer.dz_values = [] ∧ st1.layer.weight_stash.length = 2) ∧
    (countRealBackward es = 7 →
      st.weightUpdateInbox = 0 ∧ st.layer.dz_values.length = 7 ∧
      st.layer.weight_stash.length = 1) := by
  have h := (StageNodes.Cadence.cadence_fresh curr_neurons input_shape activation random).cadence_run
    hno hrun
  rw [Nat.zero_add] at h
  constructor
  · intro h8
    rw [h8] at h
    have hin : st.weightUpdateInbox = 1 := h.inbox
    refine ⟨hin, h.pending, ?_⟩
    obtain ⟨W, b, hret⟩ := h.consistent.update_weights_returns learning_rate
      (by rw [h.update_after]; decide) (by rw [h.update_after, h.pending])
    have hnode : weightUpdateNode learning_rate st = some
        { st with
          layer := { st.layer with
            weight_stash := st.layer.weight_stash ++ [W]
            bias_stash := st.layer.bias_stash ++ [b]
            dz_values := st.layer.dz_values.drop st.layer.update_after
            received_activations := st.layer.received_activations.drop st.layer.update_after }
          weightUpdateInbox := 0 } := by
      simp only [weightUpdateNode, hin, hret]
    refine ⟨_, hnode, rfl, ?_, ?_⟩
    · simp only
      rw [h.update_after]
      exact List.drop_eq_nil_of_le (by rw [h.pending])
    · simp [h.versions]
  · intro h7
    rw [h7] at h
    exact ⟨h.inbox, h.pending, h.versions⟩

/-- Witness of C5: eight rounds of forward and backward on a stage with `update_after = 8`. -/
theorem update_cadence_eight_witness :
    ∃ st, noWeightUpdate eightRounds = true ∧
      StageNodes.run linear_der 1 (StageNodes.fresh (FlowLayer.new 1 (1, 1) linear 8
        (fun _ _ => 2))) eightRounds = some st ∧
      countRealBackward eightRounds = 8 ∧
      st.weightUpdateInbox = 1 ∧ st.layer.dz_values.length = 8 ∧
      ∃ st1, weightUpdateNode 1 st = some st1 ∧ st1.weightUpdateInbox = 0 ∧
        st1.layer.dz_values = [] ∧ st1.layer.weight_stash.length = 2 :=
  ⟨_, rfl, rfl, rfl,
    (update_cadence_eight linear_der 1 1 (1, 1) linear (fun _ _ => 2) eightRounds _ rfl
      rfl).1 rfl⟩

/-- C4, the code at a failing input.  A layer added with `addLayer(..., updateAfter = 2)`
has `update_after = 2`, yet after two forward-node and two backward-node executions on real
micro-batches the backward node has put no message to the weight-update node: the counter
stands at 2 and both gradients are still pending.  The node compares the counter with the
constant 8, not with the `update_after` of the stage. -/
theorem backward_node_compares_with_eight :
    ∃ layer st, addLayer [] 1 (1, 1) linear 2 (fun _ _ => 2) = [layer] ∧
      layer.update_after = 2 ∧
      StageNodes.run linear_der 1 (StageNodes.fresh layer)
        [NodeEvent.forward (MatrixXd.scalar 3), NodeEvent.backward (MatrixXd.scalar 1),
          NodeEvent.forward (MatrixXd.scalar 5), NodeEvent.backward (MatrixXd.scalar 1)]
        = some st ∧
      st.microBatchCounter = 2 ∧ st.weightUpdateInbox = 0 ∧
      st.layer.dz_values.length = 2 :=
  ⟨_, _, rfl, rfl, rfl, rfl, rfl, rfl⟩

/-! ## The arithmetic of `update_weights` -/

/-- C6, the code at a failing input.  A stage with `update_after = 2`, initial weight 0 and
the identity activation receives the inputs `a_0 = 1`, `a_1 = 5` and then the gradients 0
and 2, so that `dz_0 = 0` and `dz_1 = 2`; `update_weights(1)` returns.  The weight it appends
is `0 - 1 * ((dz_0 + dz_1) / 2) * a_0^T = -1`: the averaged gradient is multiplied by the
oldest received input only.  Pairing each gradient with its own input gives
`0 - 1 * (1/2) * (dz_0 * a_0^T + dz_1 * a_1^T) = -5`. -/
theorem update_weights_uses_front_input_only :
    ∃ s s1 W1,
      FlowLayer.run linear_der (scalarStage 2 0)
        [Call.forward_prop (MatrixXd.scalar 1), Call.forward_prop (MatrixXd.scalar 5),
          Call.back_prop (MatrixXd.scalar 0), Call.back_prop (MatrixXd.scalar 2)] = some s ∧
      s.update_weights 1 = .returned () s1 ∧
      s1.weight_stash = s.weight_stash ++ [W1] ∧
      (W1.rows = 1 ∧ W1.cols = 1 ∧ W1.coeff 0 0 = -1) ∧
      (spec_paired_update (MatrixXd.Zero 1 1) 1 2 s.dz_values s.received_activations).coeff 0 0
        = -5 ∧
      s.weight_stash.getLast? = some ⟨1, 1, fun _ _ => 0⟩ ∧
      (s.dz_values.map fun m => m.coeff 0 0) = [0, 2] ∧
      (s.received_activations.map fun m => m.coeff 0 0) = [1, 5] := by
  refine ⟨_, _, _, rfl, rfl, rfl, ⟨rfl, rfl, ?_⟩, ?_, rfl, ?_, ?_⟩
  · norm_num [MatrixXd.sub, MatrixXd.mul, MatrixXd.smul, MatrixXd.divScalar, MatrixXd.add,
      MatrixXd.Zero, MatrixXd.transpose, MatrixXd.scalar, MatrixXd.cwiseProduct, linear_der,
      linear, MatrixXd.colwiseAdd, scalarStage, FlowLayer.new, List.range_succ]
  · norm_num [spec_paired_update, MatrixXd.sub, MatrixXd.mul, MatrixXd.smul, MatrixXd.add,
      MatrixXd.Zero, MatrixXd.transpose, MatrixXd.scalar, MatrixXd.cwiseProduct, linear_der,
      linear, MatrixXd.colwiseAdd, scalarStage, FlowLayer.new, List.range_succ]
  · norm_num [MatrixXd.scalar, MatrixXd.cwiseProduct, linear_der, scalarStage, FlowLayer.new]
  · norm_num [MatrixXd.scalar, scalarStage, FlowLayer.new]

/-- The sum of eight copies of `g`, started from the zero matrix of the shape of `g` and
divided by 8, is `g`. -/
theorem MatrixXd.average_of_eight (g : MatrixXd) :
    MatrixXd.divScalar
      (((((((((MatrixXd.Zero g.rows g.cols).add g).add g).add g).add g).add g).add g).add
        g).add g) 8 = g := by
  cases g with
  | mk rows cols coeff =>
    simp only [MatrixXd.divScalar, MatrixXd.add, MatrixXd.Zero, MatrixXd.mk.injEq, true_and]
    funext i j
    ring

/-- C7 (gradient averaging).  A stage has `update_after = 8`, its 8 pending gradients all
equal `g`, its oldest received input is `a` (at least 8 inputs are queued) and its latest
weights are `W`.  Then `update_weights(learning_rate)` returns and appends the weight matrix
`W - learning_rate * g * a^T`, in exact arithmetic. -/
theorem gradient_averaging (s : FlowLayer) (learning_rate : ℚ) (g a W : MatrixXd)
    (b : VectorXd) (rest : List MatrixXd)
    (hu : s.update_after = 8) (hdz : s.dz_values = List.replicate 8 g)
    (hrecv : s.received_activations = a :: rest) (hrest : 7 ≤ rest.length)
    (hW : s.weight_stash.getLast? = some W) (hb : s.bias_stash.getLast? = some b) :
    ∃ s1, s.update_weights learning_rate = .returned () s1 ∧
      s1.weight_stash = s.weight_stash ++
        [W.sub ((MatrixXd.smul learning_rate g).mul a.transpose)] := by
  have hsum : FlowLayer.update_weights.sum_loop s.dz_values s.update_after 0
      (MatrixXd.Zero g.rows g.cols, MatrixXd.Zero g.rows 1)
      = some (
        ((((((((MatrixXd.Zero g.rows g.cols).add g).add g).add g).add g).add g).add g).add
        g).add g,
        ((((((((MatrixXd.Zero g.rows 1).add g.rowwiseSum).add g.rowwiseSum).add
        g.rowwiseSum).add g.rowwiseSum).add g.rowwiseSum).add g.rowwiseSum).add
        g.rowwiseSum).add g.rowwiseSum) := by
    rw [hu, hdz]
    simp [FlowLayer.update_weights.sum_loop, List.replicate]
  have h := FlowLayer.update_weights_eq s learning_rate g W b a _
    (by rw [hdz]; rfl) hsum hW hb (by rw [hrecv]; rfl)
    (by rw [hu, hrecv]; simp only [List.length_cons]; omega)
  refine ⟨_, h, ?_⟩
  simp only [hu, Nat.cast_ofNat]
  rw [MatrixXd.average_of_eight]

/-- Witness of C7: eight forward calls and eight backward calls with the same gradient on a
stage with `update_after = 8`. -/
theorem gradient_averaging_witness :
    ∃ s rest,
      FlowLayer.run linear_der (scalarStage 8 2)
        (List.replicate 8 (Call.forward_prop (MatrixXd.scalar 3)) ++
          List.replicate 8 (Call.back_prop (MatrixXd.scalar 5))) = some s ∧
      s.update_after = 8 ∧
      s.dz_values = List.replicate 8
        ((MatrixXd.scalar 5).cwiseProduct (linear_der linear (MatrixXd.Zero 1 1))) ∧
      s.received_activations = MatrixXd.scalar 3 :: rest ∧ 7 ≤ rest.length ∧
      ∃ s1, s.update_weights (1 / 100) = .returned () s1 ∧
        s1.weight_stash = s.weight_stash ++
          [(⟨1, 1, fun _ _ => 2⟩ : MatrixXd).sub ((MatrixXd.smul (1 / 100)
            ((MatrixXd.scalar 5).cwiseProduct (linear_der linear (MatrixXd.Zero 1 1)))).mul
              (MatrixXd.scalar 3).transpose)] :=
  ⟨_, _, rfl, rfl, rfl, rfl, by decide,
    gradient_averaging _ (1 / 100)
      ((MatrixXd.scalar 5).cwiseProduct (linear_der linear (MatrixXd.Zero 1 1)))
      (MatrixXd.scalar 3) ⟨1, 1, fun _ _ => 2⟩ (MatrixXd.Zero 1 1) _ rfl rfl rfl (by decide)
      rfl rfl⟩

/-! ## Calls outside their preconditions -/

/-- C8, counterexample.  A stage with `update_after = 8` holds one pending gradient after
one forward and one backward call.  `update_weights` on it does not end in an
`InsufficientGradients` error with the state kept: the loop reads `dz_values[1]`, which does
not exist, and nothing is defined from there on. -/
theorem update_weights_short_is_no_error :
    ∃ s, FlowLayer.run linear_der (scalarStage 8 2)
        [Call.forward_prop (MatrixXd.scalar 3), Call.back_prop (MatrixXd.scalar 1)] = some s ∧
      s.dz_values.length = 1 ∧ s.update_after = 8 ∧
      s.update_weights 1 = .undefined ∧
      s.update_weights 1 ≠ .raised StageError.InsufficientGradients s :=
  ⟨_, rfl, rfl, rfl, rfl, fun h => by cases h⟩

/-- C8, amended.  `update_weights` does not check the number of pending gradients and has
no error path: called with fewer than `update_after` pending gradients it reads `dz_values`
past its end (or the front of the empty vector).  No error is raised, and no execution is
defined in which the update is performed or the state is kept. -/
theorem update_weights_unchecked (s : FlowLayer) (learning_rate : ℚ)
    (h : s.dz_values.length < s.update_after) :
    s.update_weights learning_rate = .undefined ∧
      (∀ e s1, s.update_weights learning_rate ≠ .raised e s1) ∧
      (∀ v s1, s.update_weights learning_rate ≠ .returned v s1) := by
  have hu := FlowLayer.update_weights_short s learning_rate h
  refine ⟨hu, ?_, ?_⟩
  · intro e s1 he
    rw [hu] at he
    cases he
  · intro v s1 hv
    rw [hu] at hv
    cases hv

/-- Witness of the amended C8: a constructed stage with `update_after = 8` and no gradient. -/
theorem update_weights_unchecked_witness :
    (scalarStage 8 2).dz_values.length < (scalarStage 8 2).update_after ∧
      (scalarStage 8 2).update_weights 1 = .undefined ∧
      (∀ e s1, (scalarStage 8 2).update_weights 1 ≠ .raised e s1) ∧
      (∀ v s1, (scalarStage 8 2).update_weights 1 ≠ .returned v s1) :=
  ⟨by decide, update_weights_unchecked (scalarStage 8 2) 1 (by decide)⟩

/-- C9, counterexample.  `back_prop` on a newly constructed stage (empty z-queue) does not
end in an `EmptyStash` error with the state kept: `try_pop` fails, the `if` has no `else`,
and control flows off the end of the value-returning function, which leaves the execution
without defined behaviour. -/
theorem back_prop_empty_is_no_error :
    (scalarStage 8 2).z_values = [] ∧
      (scalarStage 8 2).back_prop linear_der (MatrixXd.scalar 1) = .undefined ∧
      (scalarStage 8 2).back_prop linear_der (MatrixXd.scalar 1)
        ≠ .raised StageError.EmptyStash (scalarStage 8 2) :=
  ⟨rfl, rfl, fun h => by cases h⟩

/-- C9, amended.  `back_prop` has no error path: on a stage whose z-queue is empty control
flows off the end of the function without a `return` statement.  No `EmptyStash` error (nor
any other) is raised, and no execution is defined in which a gradient is returned or in which
the state is what it was. -/
theorem back_prop_empty_queue (der : ActivationFunc → ActivationFunc) (s : FlowLayer)
    (gradient : MatrixXd) (h : s.z_values = []) :
    s.back_prop der gradient = .undefined ∧
      (∀ e s1, s.back_prop der gradient ≠ .raised e s1) ∧
      (∀ v s1, s.back_prop der gradient ≠ .returned v s1) := by
  have hb : s.back_prop der gradient = .undefined := by
    simp [FlowLayer.back_prop, h]
  refine ⟨hb, ?_, ?_⟩
  · intro e s1 he
    rw [hb] at he
    cases he
  · intro v s1 hv
    rw [hb] at hv
    cases hv

/-- Witness of the amended C9: a newly constructed stage. -/
theorem back_prop_empty_queue_witness :
    (scalarStage 8 2).z_values = [] ∧
      (scalarStage 8 2).back_prop linear_der (MatrixXd.scalar 1) = .undefined ∧
      (∀ e s1, (scalarStage 8 2).back_prop linear_der (MatrixXd.scalar 1) ≠ .raised e s1) ∧
      (∀ v s1, (scalarStage 8 2).back_prop linear_der (MatrixXd.scalar 1)
        ≠ .returned v s1) :=
  ⟨rfl, back_prop_empty_queue linear_der (scalarStage 8 2) (MatrixXd.scalar 1) rfl⟩

/-- C10, counterexample.  After the first forward call and the first `back_prop` of a
stage the stash map still contains key 0.  And `calc_gradient` on a newly constructed stage,
whose map has no key 0, does not end in a `MissingStashEntry` error: it returns, having
inserted the entry `0 ↦ 0`. -/
theorem stash_lookup_retires_nothing :
    (∃ s, FlowLayer.run linear_der (scalarStage 8 2)
        [Call.forward_prop (MatrixXd.scalar 3), Call.back_prop (MatrixXd.scalar 1)] = some s ∧
      s.micro_batch_num_back = 1 ∧ s.stash_map 0 = some 0) ∧
    (scalarStage 8 2).stash_map 0 = none ∧
    (∃ grad s1, (scalarStage 8 2).calc_gradient = .returned grad s1 ∧
      s1.stash_map 0 = some 0) ∧
    (scalarStage 8 2).calc_gradient
      ≠ .raised StageError.MissingStashEntry (scalarStage 8 2) :=
  ⟨⟨_, rfl, rfl, rfl⟩, rfl, ⟨_, _, rfl, rfl⟩, fun h => by cases h⟩

/-- C10, amended.  The stash lookup retires nothing and cannot fail.
* A `back_prop` that returns in a state that a stage reaches leaves every recorded entry of
  the stash map in place; the key of the micro-batch it served (the old
  `micro_batch_num_back`) is still in the map afterwards, with its generation.
* In every state `t`, a lookup (`calc_gradient`) of a sequence number that was never
  recorded inserts the entry `seq ↦ 0` and yields weight version 0. -/
theorem stash_lookup_keeps_entries (der : ActivationFunc → ActivationFunc) (s s1 : FlowLayer)
    (g grad : MatrixXd) (hreach : s.Reachable der)
    (hret : s.back_prop der g = .returned grad s1) :
    (∀ seq gen, s.stash_map seq = some gen → s1.stash_map seq = some gen) ∧
    (∃ gen, s.stash_map s.micro_batch_num_back = some gen ∧
      s1.stash_map s.micro_batch_num_back = some gen) ∧
    (∀ (t : FlowLayer) (W0 : MatrixXd), t.stash_map t.micro_batch_num_back = none →
      t.weight_stash[0]? = some W0 →
      t.calc_gradient = .returned (W0.transpose.mul t.dz_value)
        { t with
          stash_map := stash_assign t.stash_map t.micro_batch_num_back 0
          micro_batch_num_back := t.micro_batch_num_back + 1 }) := by
  refine ⟨?_, ?_, ?_⟩
  · obtain ⟨z, rest, hz, rfl⟩ := FlowLayer.back_prop_inv hret
    exact fun seq gen h => stash_index_keeps _ _ _ _ h
  · obtain ⟨z, rest, hz, rfl⟩ := FlowLayer.back_prop_inv hret
    have hc := hreach.consistent
    have hzl := hc.z_len
    rw [hz] at hzl
    simp only [List.length_cons] at hzl
    obtain ⟨gen, hgen, -⟩ := hc.stash s.micro_batch_num_back (by omega)
    exact ⟨gen, hgen, stash_index_keeps _ _ _ _ hgen⟩
  · intro t W0 hnone hW0
    simp [FlowLayer.calc_gradient, stash_index, hnone, hW0]

/-- Witness of the amended C10: the first `back_prop` of a stage. -/
theorem stash_lookup_keeps_entries_witness :
    ∃ s grad s1,
      FlowLayer.run linear_der (scalarStage 8 2) [Call.forward_prop (MatrixXd.scalar 3)]
        = some s ∧
      s.back_prop linear_der (MatrixXd.scalar 1) = .returned grad s1 ∧
      (∀ seq gen, s.stash_map seq = some gen → s1.stash_map seq = some gen) ∧
      (∃ gen, s.stash_map s.micro_batch_num_back = some gen ∧
        s1.stash_map s.micro_batch_num_back = some gen) ∧
      (∀ (t : FlowLayer) (W0 : MatrixXd), t.stash_map t.micro_batch_num_back = none →
        t.weight_stash[0]? = some W0 →
        t.calc_gradient = .returned (W0.transpose.mul t.dz_value)
          { t with
            stash_map := stash_assign t.stash_map t.micro_batch_num_back 0
            micro_batch_num_back := t.micro_batch_num_back + 1 }) :=
  ⟨_, _, _, rfl, rfl,
    stash_lookup_keeps_entries linear_der _ _ (MatrixXd.scalar 1) _
      ⟨1, (1, 1), linear, 8, fun _ _ => 2, [Call.forward_prop (MatrixXd.scalar 3)], rfl⟩ rfl⟩

/-! ## The poison pill at the nodes -/

theorem isPoisonPill_iff (m : MatrixXd) :
    isPoisonPill m = true ↔ m.cols = 1 ∧ m.rows = 1 ∧ m.coeff 0 0 = -1 := by
  simp [isPoisonPill, and_assoc]

/-- C12 (sentinel pass-through).  A message that is the poison pill (a 1×1 matrix holding
`-1.0`) is returned unchanged by the forward node and by the backward node of a stage, and the
state of the stage is afterwards what it was before: the layer with its counters, queues,
stash map, pending gradients and weight versions, the counter `microBatchCounters[i]` and the
inbox of the weight-update node, to which nothing is put. -/
theorem sentinel_pass_through (der : ActivationFunc → ActivationFunc) (st : StageNodes)
    (m : MatrixXd) (hcols : m.cols = 1) (hrows : m.rows = 1) (hvalue : m.coeff 0 0 = -1) :
    forwardNode st m = some (m, st) ∧ backwardNode der st m = some (m, st) := by
  have hp : isPoisonPill m = true := (isPoisonPill_iff m).2 ⟨hcols, hrows, hvalue⟩
  simp [forwardNode, backwardNode, hp]

/-- Witness of C12: the poison pill at a stage with one micro-batch in flight. -/
theorem sentinel_pass_through_witness :
    ∃ st, StageNodes.run linear_der 1 (StageNodes.fresh (scalarStage 8 2))
        [NodeEvent.forward (MatrixXd.scalar 3)] = some st ∧
      (MatrixXd.scalar (-1)).cols = 1 ∧ (MatrixXd.scalar (-1)).rows = 1 ∧
      (MatrixXd.scalar (-1)).coeff 0 0 = -1 ∧
      forwardNode st (MatrixXd.scalar (-1)) = some (MatrixXd.scalar (-1), st) ∧
      backwardNode linear_der st (MatrixXd.scalar (-1)) = some (MatrixXd.scalar (-1), st) :=
  ⟨_, rfl, rfl, rfl, rfl,
    sentinel_pass_through linear_der _ (MatrixXd.scalar (-1)) rfl rfl rfl⟩

/-- C13, counterexample.  The 1×1 matrix holding `-1.0` is a data matrix like any other, yet
the nodes take it for the poison pill: the forward node of a new stage passes it on without
calling `forward_prop` (the forward counter stays 0), and the backward node of a stage with
one micro-batch in flight passes it on without calling `back_prop` (the `z` stays queued). -/
theorem data_matrix_taken_for_poison_pill :
    isPoisonPill (MatrixXd.scalar (-1)) = true ∧
    (∃ st, forwardNode (StageNodes.fresh (scalarStage 8 2)) (MatrixXd.scalar (-1))
        = some (MatrixXd.scalar (-1), st) ∧
      st.layer.micro_batch_num_forw = 0 ∧ st.layer.received_activations = []) ∧
    (∃ st st1, StageNodes.run linear_der 1 (StageNodes.fresh (scalarStage 8 2))
        [NodeEvent.forward (MatrixXd.scalar 3)] = some st ∧
      backwardNode linear_der st (MatrixXd.scalar (-1)) = some (MatrixXd.scalar (-1), st1) ∧
      st1.layer.micro_batch_num_back = 0 ∧ st1.layer.z_values.length = 1 ∧
      st1.layer.dz_values = []) :=
  ⟨rfl, ⟨_, rfl, rfl, rfl⟩, ⟨_, _, rfl, rfl, rfl, rfl, rfl⟩⟩

/-- C13, amended.  A message that is not a 1×1 matrix holding `-1.0` is not taken for the
poison pill: the forward node calls `forward_prop` on it and passes on what that returns, and
the backward node calls `back_prop` on it, counts it and passes on the gradient.  On a stage
in a consistent state the forward node therefore returns with the forward counter incremented
and the message queued in `received_activations`, and, when a `z` is queued, the backward node
returns with the backward counter incremented. -/
theorem data_matrix_is_processed (der : ActivationFunc → ActivationFunc) (st : StageNodes)
    (m : MatrixXd) (h : ¬ (m.cols = 1 ∧ m.rows = 1 ∧ m.coeff 0 0 = -1)) :
    isPoisonPill m = false ∧
    forwardNode st m =
      (match st.layer.forward_prop m with
        | .returned a layer => some (a, { st with layer := layer })
        | _ => none) ∧
    backwardNode der st m =
      (match st.layer.back_prop der m with
        | .returned grad layer =>
          if st.microBatchCounter + 1 = 8 then
            some (grad, { layer := layer, microBatchCounter := 0
                          weightUpdateInbox := st.weightUpdateInbox + 1 })
          else
            some (grad, { layer := layer, microBatchCounter := st.microBatchCounter + 1
                          weightUpdateInbox := st.weightUpdateInbox })
        | _ => none) ∧
    (st.layer.Consistent → ∃ a st1, forwardNode st m = some (a, st1) ∧
      st1.layer.micro_batch_num_forw = st.layer.micro_batch_num_forw + 1 ∧
      st1.layer.received_activations = st.layer.received_activations ++ [m]) ∧
    (st.layer.Consistent → st.layer.z_values ≠ [] →
      ∃ grad st1, backwardNode der st m = some (grad, st1) ∧
        st1.layer.micro_batch_num_back = st.layer.micro_batch_num_back + 1) := by
  have hp : isPoisonPill m = false := by
    cases hpp : isPoisonPill m with
    | false => rfl
    | true => exact absurd ((isPoisonPill_iff m).1 hpp) h
  refine ⟨hp, by simp [forwardNode, hp], ?_, ?_, ?_⟩
  · simp only [backwardNode, hp, Bool.false_eq_true, if_false]
  · intro hc
    obtain ⟨W, b, hW, hb⟩ := hc.latest
    simp only [forwardNode, hp, FlowLayer.forward_prop_eq st.layer m W b hW hb,
      Bool.false_eq_true, if_false]
    exact ⟨_, _, rfl, rfl, rfl⟩
  · intro hc hz
    cases hzv : st.layer.z_values with
    | nil => exact absurd hzv hz
    | cons z rest =>
      have hzl := hc.z_len
      rw [hzv] at hzl
      simp only [List.length_cons] at hzl
      obtain ⟨gen, hgen, hlt⟩ := hc.stash st.layer.micro_batch_num_back (by omega)
      have hb := FlowLayer.back_prop_eq der st.layer m z _ rest gen hzv hgen
        (List.getElem?_eq_getElem hlt)
      by_cases hcnt : st.microBatchCounter + 1 = 8
      · simp only [backwardNode, hp, hb, hcnt, Bool.false_eq_true, if_false, if_true]
        exact ⟨_, _, rfl, rfl⟩
      · simp only [backwardNode, hp, hb, hcnt, Bool.false_eq_true, if_false]
        exact ⟨_, _, rfl, rfl⟩

/-- Witness of the amended C13: the 1×1 matrix holding 3 at a new stage. -/
theorem data_matrix_is_processed_witness :
    ¬ ((MatrixXd.scalar 3).cols = 1 ∧ (MatrixXd.scalar 3).rows = 1 ∧
        (MatrixXd.scalar 3).coeff 0 0 = -1) ∧
    isPoisonPill (MatrixXd.scalar 3) = false ∧
    ∃ a st1, forwardNode (StageNodes.fresh (scalarStage 8 2)) (MatrixXd.scalar 3)
        = some (a, st1) ∧
      st1.layer.micro_batch_num_forw
        = (StageNodes.fresh (scalarStage 8 2)).layer.micro_batch_num_forw + 1 ∧
      st1.layer.received_activations
        = (StageNodes.fresh (scalarStage 8 2)).layer.received_activations
          ++ [MatrixXd.scalar 3] :=
  have hne : ¬ ((MatrixXd.scalar 3).cols = 1 ∧ (MatrixXd.scalar 3).rows = 1 ∧
      (MatrixXd.scalar 3).coeff 0 0 = -1) := by
    simp [MatrixXd.scalar]
    norm_num
  ⟨hne, rfl,
    (data_matrix_is_processed linear_der (StageNodes.fresh (scalarStage 8 2))
      (MatrixXd.scalar 3) hne).2.2.2.1 (FlowLayer.Consistent.new 1 (1, 1) linear 8 _)⟩

/-! ## Postconditions of `forward_prop` and `back_prop` -/

/-- C15 (`forward_prop` postcondition).  In a state whose latest weight version is
`(W, b)`, `forward_prop(x)` returns `activ_func(z)` for `z = W * x` with `b` added to every
column.  It appends `x` at the back of `received_activations` and `z` at the back of
`z_values`, maps the old `micro_batch_num_forw` to the index of the latest generation in
`stash_map` (no other key changes), increments `micro_batch_num_forw` by one and leaves the
weight and bias stash, the backward counter and the pending gradients as they were. -/
theorem forward_prop_postcondition (s : FlowLayer) (x W : MatrixXd) (b : VectorXd)
    (hW : s.weight_stash.getLast? = some W) (hb : s.bias_stash.getLast? = some b) :
    ∃ z s1, s.forward_prop x = .returned (s.activ_func z) s1 ∧
      z.rows = W.rows ∧ z.cols = x.cols ∧
      (∀ i j, z.coeff i j = (W.mul x).coeff i j + b.coeff i 0) ∧
      s1.received_activations = s.received_activations ++ [x] ∧
      s1.z_values = s.z_values ++ [z] ∧
      s1.stash_map s.micro_batch_num_forw = some (s.weight_stash.length - 1) ∧
      s.weight_stash[s.weight_stash.length - 1]? = some W ∧
      (∀ k, k ≠ s.micro_batch_num_forw → s1.stash_map k = s.stash_map k) ∧
      s1.micro_batch_num_forw = s.micro_batch_num_forw + 1 ∧
      s1.weight_stash = s.weight_stash ∧ s1.bias_stash = s.bias_stash ∧
      s1.micro_batch_num_back = s.micro_batch_num_back ∧ s1.dz_values = s.dz_values ∧
      s1.update_after = s.update_after := by
  refine ⟨(W.mul x).colwiseAdd b, _, FlowLayer.forward_prop_eq s x W b hW hb, rfl, rfl,
    fun _ _ => rfl, rfl, rfl, by simp [stash_assign], ?_, ?_, rfl, rfl, rfl, rfl, rfl, rfl⟩
  · rw [← List.getLast?_eq_getElem?]
    exact hW
  · intro k hk
    simp [stash_assign, hk]

/-- Witness of C15: a newly constructed stage. -/
theorem forward_prop_postcondition_witness :
    (scalarStage 8 2).weight_stash.getLast? = some ⟨1, 1, fun _ _ => 2⟩ ∧
    (scalarStage 8 2).bias_stash.getLast? = some (MatrixXd.Zero 1 1) ∧
    ∃ z s1, (scalarStage 8 2).forward_prop (MatrixXd.scalar 3)
        = .returned ((scalarStage 8 2).activ_func z) s1 ∧
      z.rows = 1 ∧ z.cols = 1 ∧ z.coeff 0 0 = 6 ∧
      s1.received_activations = [MatrixXd.scalar 3] ∧ s1.z_values = [z] ∧
      s1.stash_map 0 = some 0 ∧ s1.micro_batch_num_forw = 1 ∧
      s1.weight_stash = (scalarStage 8 2).weight_stash := by
  refine ⟨rfl, rfl, ?_⟩
  obtain ⟨z, s1, h1, h2, h3, h4, h5, h6, h7, -, -, h10, h11, -⟩ :=
    forward_prop_postcondition (scalarStage 8 2) (MatrixXd.scalar 3) ⟨1, 1, fun _ _ => 2⟩
      (MatrixXd.Zero 1 1) rfl rfl
  refine ⟨z, s1, h1, h2, h3, ?_, h5, h6, h7, h10, h11⟩
  rw [h4]
  norm_num [MatrixXd.mul, MatrixXd.Zero, MatrixXd.scalar, List.range_succ]

/-- C16 (`back_prop` postcondition).  In a state whose z-queue is `z :: rest` and whose
stash map sends `micro_batch_num_back` to a generation `gen` holding the weights `W`,
`back_prop(gradient)` returns `W^T * dz` for `dz = gradient ⊙ activation_derivative(z)`.
It removes `z` from the front of the z-queue, appends `dz` at the back of `dz_values`,
increments `micro_batch_num_back` by one, and leaves `received_activations`, the weight and
bias stash, the stash map and the forward counter as they were. -/
theorem back_prop_postcondition (der : ActivationFunc → ActivationFunc) (s : FlowLayer)
    (gradient z W : MatrixXd) (rest : List MatrixXd) (gen : Nat)
    (hz : s.z_values = z :: rest)
    (hmap : s.stash_map s.micro_batch_num_back = some gen)
    (hW : s.weight_stash[gen]? = some W) :
    ∃ dz s1, s.back_prop der gradient = .returned (W.transpose.mul dz) s1 ∧
      dz = gradient.cwiseProduct (der s.activ_func z) ∧
      (∀ i j, dz.coeff i j = gradient.coeff i j * (der s.activ_func z).coeff i j) ∧
      s1.z_values = rest ∧
      s1.dz_values = s.dz_values ++ [dz] ∧
      s1.micro_batch_num_back = s.micro_batch_num_back + 1 ∧
      s1.received_activations = s.received_activations ∧
      s1.weight_stash = s.weight_stash ∧ s1.bias_stash = s.bias_stash ∧
      s1.stash_map = s.stash_map ∧
      s1.micro_batch_num_forw = s.micro_batch_num_forw ∧
      s1.update_after = s.update_after :=
  ⟨_, _, FlowLayer.back_prop_eq der s gradient z W rest gen hz hmap hW, rfl, fun _ _ => rfl,
    rfl, rfl, rfl, rfl, rfl, rfl, rfl, rfl, rfl⟩

/-- Witness of C16: a stage after one forward call. -/
theorem back_prop_postcondition_witness :
    ∃ s z, FlowLayer.run linear_der (scalarStage 8 2) [Call.forward_prop (MatrixXd.scalar 3)]
        = some s ∧
      s.z_values = z :: [] ∧ s.stash_map s.micro_batch_num_back = some 0 ∧
      s.weight_stash[0]? = some ⟨1, 1, fun _ _ => 2⟩ ∧
      ∃ dz s1, s.back_prop linear_der (MatrixXd.scalar 5)
          = .returned ((⟨1, 1, fun _ _ => 2⟩ : MatrixXd).transpose.mul dz) s1 ∧
        dz = (MatrixXd.scalar 5).cwiseProduct (linear_der s.activ_func z) ∧
        (∀ i j, dz.coeff i j
          = (MatrixXd.scalar 5).coeff i j * (linear_der s.activ_func z).coeff i j) ∧
        s1.z_values = [] ∧
        s1.dz_values = s.dz_values ++ [dz] ∧
        s1.micro_batch_num_back = s.micro_batch_num_back + 1 ∧
        s1.received_activations = s.received_activations ∧
        s1.weight_stash = s.weight_stash ∧ s1.bias_stash = s.bias_stash ∧
        s1.stash_map = s.stash_map ∧
        s1.micro_batch_num_forw = s.micro_batch_num_forw ∧
        s1.update_after = s.update_after :=
  ⟨_, _, rfl, rfl, rfl, rfl,
    back_prop_postcondition linear_der _ (MatrixXd.scalar 5) _ ⟨1, 1, fun _ _ => 2⟩ [] 0
      rfl rfl rfl⟩

/-! ## The weight stash only grows -/

theorem FlowLayer.StashInBounds.bounds_new (n : Nat) (sh : Shape) (act : ActivationFunc)
    (u : Nat) (rnd : Nat → Nat → ℚ) : (FlowLayer.new n sh act u rnd).StashInBounds where
  stored := by simp [FlowLayer.new]
  paired := by simp [FlowLayer.new]
  bound := by intro k g h; simp [FlowLayer.new] at h

theorem FlowLayer.StashInBounds.bounds_step {der : ActivationFunc → ActivationFunc}
    {s s1 : FlowLayer} {c : Call} (h : s.StashInBounds) (hstep : s.step der c = some s1) :
    s1.StashInBounds := by
  have hpos : 0 < s.weight_stash.length := List.length_pos.mpr h.stored
  cases c with
  | forward_prop x =>
    obtain ⟨a, ha⟩ := Completion.state?_eq_some hstep
    obtain ⟨W, b, -, -, -, rfl⟩ := FlowLayer.forward_prop_state ha
    refine ⟨h.stored, h.paired, ?_⟩
    intro k g hk
    simp only [stash_assign] at hk
    split at hk
    · simp only [Option.some.injEq] at hk
      simp only
      omega
    · exact h.bound k g hk
  | back_prop g =>
    obtain ⟨a, ha⟩ := Completion.state?_eq_some hstep
    obtain ⟨z, rest, -, rfl⟩ := FlowLayer.back_prop_inv ha
    refine ⟨h.stored, h.paired, ?_⟩
    intro k g hk
    simp only [stash_index] at hk
    split at hk
    · exact h.bound k g hk
    · simp only [stash_assign] at hk
      split at hk
      · simp only [Option.some.injEq] at hk
        simp only
        omega
      · exact h.bound k g hk
  | update_weights lr =>
    obtain ⟨a, ha⟩ := Completion.state?_eq_some hstep
    obtain ⟨W, b, rfl, -, -⟩ := FlowLayer.update_weights_inv ha
    refine ⟨by simp, by simp [h.paired], ?_⟩
    intro k g hk
    have := h.bound k g hk
    simp only [List.length_append, List.length_singleton]
    omega

theorem FlowLayer.StashInBounds.bounds_run {der : ActivationFunc → ActivationFunc}
    {cs : List Call} :
    ∀ {s s1 : FlowLayer}, s.StashInBounds → FlowLayer.run der s cs = some s1 →
      s1.StashInBounds := by
  induction cs with
  | nil =>
    intro s s1 h hrun
    simp only [FlowLayer.run, Option.some.injEq] at hrun
    exact hrun ▸ h
  | cons c cs ih =>
    intro s s1 h hrun
    obtain ⟨s', hstep, hrest⟩ := FlowLayer.run_cons hrun
    exact ih (h.bounds_step hstep) hrest

theorem FlowLayer.Reachable.stash_in_bounds {der : ActivationFunc → ActivationFunc}
    {s : FlowLayer} (h : s.Reachable der) : s.StashInBounds := by
  obtain ⟨n, sh, act, u, rnd, calls, hrun⟩ := h
  exact (FlowLayer.StashInBounds.bounds_new n sh act u rnd).bounds_run hrun

theorem FlowLayer.stash_prefix_step {der : ActivationFunc → ActivationFunc}
    {s s1 : FlowLayer} {c : Call} (hstep : s.step der c = some s1) :
    (∃ ws, s1.weight_stash = s.weight_stash ++ ws) ∧
      (∃ bs, s1.bias_stash = s.bias_stash ++ bs) := by
  cases c with
  | forward_prop x =>
    obtain ⟨a, ha⟩ := Completion.state?_eq_some hstep
    obtain ⟨W, b, -, -, -, rfl⟩ := FlowLayer.forward_prop_state ha
    exact ⟨⟨[], by simp⟩, ⟨[], by simp⟩⟩
  | back_prop g =>
    obtain ⟨a, ha⟩ := Completion.state?_eq_some hstep
    obtain ⟨z, rest, -, rfl⟩ := FlowLayer.back_prop_inv ha
    exact ⟨⟨[], by simp⟩, ⟨[], by simp⟩⟩
  | update_weights lr =>
    obtain ⟨a, ha⟩ := Completion.state?_eq_some hstep
    obtain ⟨W, b, rfl, -, -⟩ := FlowLayer.update_weights_inv ha
    exact ⟨⟨[W], rfl⟩, ⟨[b], rfl⟩⟩

theorem FlowLayer.stash_prefix_run {der : ActivationFunc → ActivationFunc} {cs : List Call} :
    ∀ {s s1 : FlowLayer}, FlowLayer.run der s cs = some s1 →
      (∃ ws, s1.weight_stash = s.weight_stash ++ ws) ∧
        (∃ bs, s1.bias_stash = s.bias_stash ++ bs) := by
  induction cs with
  | nil =>
    intro s s1 hrun
    simp only [FlowLayer.run, Option.some.injEq] at hrun
    subst hrun
    exact ⟨⟨[], by simp⟩, ⟨[], by simp⟩⟩
  | cons c cs ih =>
    intro s s1 hrun
    obtain ⟨s', hstep, hrest⟩ := FlowLayer.run_cons hrun
    obtain ⟨⟨ws1, h1⟩, ⟨bs1, h2⟩⟩ := FlowLayer.stash_prefix_step hstep
    obtain ⟨⟨ws2, h3⟩, ⟨bs2, h4⟩⟩ := ih hrest
    exact ⟨⟨ws1 ++ ws2, by rw [h3, h1, List.append_assoc]⟩,
      ⟨bs1 ++ bs2, by rw [h4, h2, List.append_assoc]⟩⟩

theorem List.getElem?_append_of_some {α : Type} {l : List α} {i : Nat} {a : α}
    (h : l[i]? = some a) (r : List α) : (l ++ r)[i]? = some a := by
  rw [List.getElem?_append_left (List.getElem?_eq_some.1 h).1]
  exact h

/-- C18 (the weight stash is append-only).  Whatever calls of `forward_prop`, `back_prop`
and `update_weights` a stage executes, its weight stash and its bias stash afterwards are the
ones before with versions appended at the end: the number of generations does not decrease
and every generation keeps its weights and its bias.  For a state that a constructed stage
reaches, every generation that an entry of the stash map refers to is therefore still stored,
unchanged, after the calls. -/
theorem weight_stash_append_only (der : ActivationFunc → ActivationFunc) (s s1 : FlowLayer)
    (calls : List Call) (hrun : FlowLayer.run der s calls = some s1) :
    (∃ ws, s1.weight_stash = s.weight_stash ++ ws) ∧
    (∃ bs, s1.bias_stash = s.bias_stash ++ bs) ∧
    s.weight_stash.length ≤ s1.weight_stash.length ∧
    (∀ (g : Nat) W, s.weight_stash[g]? = some W → s1.weight_stash[g]? = some W) ∧
    (∀ (g : Nat) b, s.bias_stash[g]? = some b → s1.bias_stash[g]? = some b) ∧
    (s.Reachable der → ∀ seq gen, s.stash_map seq = some gen →
      ∃ W b, s.weight_stash[gen]? = some W ∧ s1.weight_stash[gen]? = some W ∧
        s.bias_stash[gen]? = some b ∧ s1.bias_stash[gen]? = some b) := by
  obtain ⟨⟨ws, hws⟩, ⟨bs, hbs⟩⟩ := FlowLayer.stash_prefix_run hrun
  have hW : ∀ (g : Nat) W, s.weight_stash[g]? = some W → s1.weight_stash[g]? = some W := by
    intro g W h
    rw [hws]
    exact List.getElem?_append_of_some h ws
  have hB : ∀ (g : Nat) b, s.bias_stash[g]? = some b → s1.bias_stash[g]? = some b := by
    intro g b h
    rw [hbs]
    exact List.getElem?_append_of_some h bs
  refine ⟨⟨ws, hws⟩, ⟨bs, hbs⟩, by rw [hws]; simp, hW, hB, ?_⟩
  intro hreach seq gen hseq
  have hb := hreach.stash_in_bounds
  have hlt := hb.bound seq gen hseq
  have hlt2 : gen < s.bias_stash.length := by rw [hb.paired]; exact hlt
  exact ⟨s.weight_stash[gen], s.bias_stash[gen], List.getElem?_eq_getElem hlt,
    hW _ _ (List.getElem?_eq_getElem hlt), List.getElem?_eq_getElem hlt2,
    hB _ _ (List.getElem?_eq_getElem hlt2)⟩

/-- Witness of C18: a micro-batch whose stash entry refers to generation 0 while an
`update_weights` appends generation 1. -/
theorem weight_stash_append_only_witness :
    ∃ s s1,
      FlowLayer.run linear_der (scalarStage 1 2)
        [Call.forward_prop (MatrixXd.scalar 3), Call.back_prop (MatrixXd.scalar 1),
          Call.forward_prop (MatrixXd.scalar 5)] = some s ∧
      FlowLayer.run linear_der s [Call.update_weights 1] = some s1 ∧
      s.stash_map 1 = some 0 ∧ s1.weight_stash.length = 2 ∧
      (∃ ws, s1.weight_stash = s.weight_stash ++ ws) ∧
      (∃ bs, s1.bias_stash = s.bias_stash ++ bs) ∧
      s.weight_stash.length ≤ s1.weight_stash.length ∧
      (∀ (g : Nat) W, s.weight_stash[g]? = some W → s1.weight_stash[g]? = some W) ∧
      (∀ (g : Nat) b, s.bias_stash[g]? = some b → s1.bias_stash[g]? = some b) ∧
      (s.Reachable linear_der → ∀ seq gen, s.stash_map seq = some gen →
        ∃ W b, s.weight_stash[gen]? = some W ∧ s1.weight_stash[gen]? = some W ∧
          s.bias_stash[gen]? = some b ∧ s1.bias_stash[gen]? = some b) :=
  ⟨_, _, rfl, rfl, rfl, rfl,
    weight_stash_append_only linear_der _ _ [Call.update_weights 1] rfl⟩

/-- C20 (invariant of the reachable states).  In every state that a constructed stage
reaches by calls that return: `micro_batch_num_back ≤ micro_batch_num_forw`; the z-queue
holds `micro_batch_num_forw - micro_batch_num_back` entries; the stash map has an entry for
every sequence number below `micro_batch_num_forw`; every generation in the stash map is
smaller than the number of stored weight versions.  Hence, whenever the z-queue is not empty,
the stash lookup of `back_prop` for `micro_batch_num_back` hits a recorded entry whose weight
version is stored, and `back_prop` returns. -/
theorem reachable_stage_invariant (der : ActivationFunc → ActivationFunc) (s : FlowLayer)
    (hreach : s.Reachable der) :
    s.micro_batch_num_back ≤ s.micro_batch_num_forw ∧
    s.z_values.length = s.micro_batch_num_forw - s.micro_batch_num_back ∧
    (∀ k, k < s.micro_batch_num_forw → ∃ gen, s.stash_map k = some gen) ∧
    (∀ k gen, s.stash_map k = some gen → gen < s.weight_stash.length) ∧
    (∀ z rest, s.z_values = z :: rest →
      ∃ gen W, s.stash_map s.micro_batch_num_back = some gen ∧
        s.weight_stash[gen]? = some W ∧
        ∀ gradient, ∃ s1, s.back_prop der gradient
          = .returned (W.transpose.mul (gradient.cwiseProduct (der s.activ_func z))) s1) := by
  have hc := hreach.consistent
  have hb := hreach.stash_in_bounds
  have hzl := hc.z_len
  refine ⟨by omega, by omega, ?_, hb.bound, ?_⟩
  · intro k hk
    obtain ⟨g, hg, -⟩ := hc.stash k hk
    exact ⟨g, hg⟩
  · intro z rest hz
    rw [hz] at hzl
    simp only [List.length_cons] at hzl
    obtain ⟨gen, hgen, hlt⟩ := hc.stash s.micro_batch_num_back (by omega)
    refine ⟨gen, s.weight_stash[gen], hgen, List.getElem?_eq_getElem hlt, ?_⟩
    intro gradient
    exact ⟨_, FlowLayer.back_prop_eq der s gradient z _ rest gen hz hgen
      (List.getElem?_eq_getElem hlt)⟩

/-- Witness of C20: a stage after two forward calls, one backward call and a weight
update. -/
theorem reachable_stage_invariant_witness :
    ∃ s, FlowLayer.run linear_der (scalarStage 1 2)
        [Call.forward_prop (MatrixXd.scalar 3), Call.forward_prop (MatrixXd.scalar 5),
          Call.back_prop (MatrixXd.scalar 1), Call.update_weights 1] = some s ∧
      s.micro_batch_num_back ≤ s.micro_batch_num_forw ∧
      s.z_values.length = s.micro_batch_num_forw - s.micro_batch_num_back ∧
      (∀ k, k < s.micro_batch_num_forw → ∃ gen, s.stash_map k = some gen) ∧
      (∀ k gen, s.stash_map k = some gen → gen < s.weight_stash.length) ∧
      (∀ z rest, s.z_values = z :: rest →
        ∃ gen W, s.stash_map s.micro_batch_num_back = some gen ∧
          s.weight_stash[gen]? = some W ∧
          ∀ gradient, ∃ s1, s.back_prop linear_der gradient
            = .returned (W.transpose.mul
                (gradient.cwiseProduct (linear_der s.activ_func z))) s1) :=
  ⟨_, rfl,
    reachable_stage_invariant linear_der _
      ⟨1, (1, 1), linear, 1, fun _ _ => 2,
        [Call.forward_prop (MatrixXd.scalar 3), Call.forward_prop (MatrixXd.scalar 5),
          Call.back_prop (MatrixXd.scalar 1), Call.update_weights 1], rfl⟩⟩

/-! ## Draining a stage -/

theorem StageNodes.step_forward_inv {der : ActivationFunc → ActivationFunc} {lr : ℚ}
    {st st1 : StageNodes} {m : MatrixXd}
    (hstep : st.step der lr (NodeEvent.forward m) = some st1) :
    ∃ out, forwardNode st m = some (out, st1) := by
  cases hfn : forwardNode st m with
  | none => simp [StageNodes.step, hfn] at hstep
  | some r =>
    simp only [StageNodes.step, hfn, Option.map_some', Option.some.injEq] at hstep
    exact ⟨r.1, by rw [← hstep]⟩

theorem StageNodes.step_backward_inv {der : ActivationFunc → ActivationFunc} {lr : ℚ}
    {st st1 : StageNodes} {m : MatrixXd}
    (hstep : st.step der lr (NodeEvent.backward m) = some st1) :
    ∃ out, backwardNode der st m = some (out, st1) := by
  cases hfn : backwardNode der st m with
  | none => simp [StageNodes.step, hfn] at hstep
  | some r =>
    simp only [StageNodes.step, hfn, Option.map_some', Option.some.injEq] at hstep
    exact ⟨r.1, by rw [← hstep]⟩

theorem weightUpdateNode_inv {lr : ℚ} {st st1 : StageNodes}
    (h : weightUpdateNode lr st = some st1) :
    ∃ inbox layer, st.weightUpdateInbox = inbox + 1 ∧
      st.layer.update_weights lr = .returned () layer ∧
      st1 = { st with layer := layer, weightUpdateInbox := inbox } := by
  unfold weightUpdateNode at h
  split at h
  · simp at h
  · rename_i inbox hin
    cases hu : st.layer.update_weights lr with
    | returned v layer =>
      simp only [hu, Option.some.injEq] at h
      exact ⟨inbox, layer, hin, rfl, h.symm⟩
    | raised e l => simp [hu] at h
    | undefined => simp [hu] at h

theorem StageNodes.Draining.drain_step {der : ActivationFunc → ActivationFunc} {lr : ℚ}
    {st st1 : StageNodes} {nf nb : Nat} {e : NodeEvent} (h : st.Draining nf nb)
    (hstep : st.step der lr e = some st1) :
    st1.Draining (nf + countRealForward [e]) (nb + countRealBackward [e]) := by
  cases e with
  | forward m =>
    obtain ⟨out, hout⟩ := StageNodes.step_forward_inv hstep
    rcases forwardNode_inv hout with ⟨hp, -, rfl⟩ | ⟨hp, layer, hf, rfl⟩
    · simpa [countRealForward, countRealBackward, hp] using h
    · have hc := h.consistent.after_forward_prop hf
      obtain ⟨W, b, -, -, -, rfl⟩ := FlowLayer.forward_prop_state hf
      simp only [countRealForward, countRealBackward, hp, Bool.false_eq_true, if_false,
        Nat.zero_add, Nat.add_zero]
      refine ⟨hc, h.update_after, by simp [h.forwarded], h.backwarded, h.counter, h.pending, ?_⟩
      intro k hk
      have hne : k ≠ st.layer.micro_batch_num_forw := by rw [h.forwarded]; omega
      simp only [stash_assign, hne, if_false]
      exact h.unrecorded k (by omega)
  | backward m =>
    obtain ⟨out, hout⟩ := StageNodes.step_backward_inv hstep
    rcases backwardNode_inv hout with ⟨hp, -, rfl⟩ | ⟨hp, layer, hf, rfl⟩
    · simpa [countRealForward, countRealBackward, hp] using h
    · have hc := h.consistent.after_back_prop hf
      obtain ⟨z, rest, hz, rfl⟩ := FlowLayer.back_prop_inv hf
      have hzl := h.consistent.z_len
      rw [hz] at hzl
      simp only [List.length_cons] at hzl
      obtain ⟨gen, hgen, -⟩ := h.consistent.stash st.layer.micro_batch_num_back (by omega)
      have h1 := h.counter
      have h2 := h.pending
      have h3 := h.backwarded
      have h4 := h.forwarded
      have hun : ∀ k, nf ≤ k →
          (stash_index st.layer.stash_map st.layer.micro_batch_num_back).2 k = none := by
        intro k hk
        simp only [stash_index, hgen]
        exact h.unrecorded k hk
      simp only [countRealForward, countRealBackward, hp, Bool.false_eq_true, if_false,
        Nat.zero_add, Nat.add_zero]
      by_cases hcnt : st.microBatchCounter + 1 = 8
      · simp only [hcnt, if_true]
        exact ⟨hc, h.update_after, h4, by simp only; omega, by simp only; omega,
          by simp only [List.length_append, List.length_singleton]; omega, hun⟩
      · simp only [hcnt, if_false]
        exact ⟨hc, h.update_after, h4, by simp only; omega, by simp only; omega,
          by simp only [List.length_append, List.length_singleton]; omega, hun⟩
  | weightUpdate =>
    obtain ⟨inbox, layer, hin, hu, rfl⟩ := weightUpdateNode_inv hstep
    have hc := h.consistent.after_update_weights hu
    obtain ⟨W, b, rfl, hdz, -⟩ := FlowLayer.update_weights_inv hu
    have h2 := h.pending
    have h5 := h.update_after
    simp only [countRealForward, countRealBackward, Nat.add_zero]
    refine ⟨hc, h.update_after, h.forwarded, h.backwarded, h.counter, ?_, h.unrecorded⟩
    simp only [List.length_drop]
    omega

theorem countRealForward_cons (e : NodeEvent) (es : List NodeEvent) :
    countRealForward (e :: es) = countRealForward [e] + countRealForward es := by
  cases e with
  | forward m =>
    by_cases hp : isPoisonPill m = true
    · simp [countRealForward, hp]
    · simp [countRealForward, hp, Nat.add_comm]
  | backward m => simp [countRealForward]
  | weightUpdate => simp [countRealForward]

theorem StageNodes.Draining.drain_run {der : ActivationFunc → ActivationFunc} {lr : ℚ}
    {es : List NodeEvent} :
    ∀ {st st1 : StageNodes} {nf nb : Nat}, st.Draining nf nb →
      StageNodes.run der lr st es = some st1 →
      st1.Draining (nf + countRealForward es) (nb + countRealBackward es) := by
  induction es with
  | nil =>
    intro st st1 nf nb h hrun
    simp only [StageNodes.run, Option.some.injEq] at hrun
    subst hrun
    simpa [countRealForward, countRealBackward] using h
  | cons e es ih =>
    intro st st1 nf nb h hrun
    obtain ⟨st', hstep, hrest⟩ := StageNodes.node_run_cons hrun
    have := ih (h.drain_step hstep) hrest
    rw [countRealForward_cons, countRealBackward_cons, ← Nat.add_assoc, ← Nat.add_assoc]
    exact this

theorem StageNodes.Draining.drain_fresh (n : Nat) (sh : Shape) (act : ActivationFunc)
    (rnd : Nat → Nat → ℚ) :
    (StageNodes.fresh (FlowLayer.new n sh act 8 rnd)).Draining 0 0 where
  consistent := FlowLayer.Consistent.new n sh act 8 rnd
  update_after := rfl
  forwarded := rfl
  backwarded := rfl
  counter := rfl
  pending := rfl
  unrecorded := fun _ _ => rfl

theorem StageNodes.Draining.drained {st : StageNodes} {M : Nat} (h : st.Draining M M)
    (hin : st.weightUpdateInbox = 0) : st.Drained M := by
  have hzl := h.consistent.z_len
  have hrl := h.consistent.received_len
  have hf := h.forwarded
  have hb := h.backwarded
  have hp := h.pending
  refine ⟨hf, hb, ?_, ?_, by omega, by omega⟩
  · exact List.length_eq_zero.1 (by omega)
  · intro k
    constructor
    · intro hk
      by_contra hlt
      rw [h.unrecorded k (by omega)] at hk
      simp at hk
    · intro hk
      obtain ⟨g, hg, -⟩ := h.consistent.stash k (by omega)
      simp [hg]

theorem StageNodes.run_append {der : ActivationFunc → ActivationFunc} {lr : ℚ}
    {es fs : List NodeEvent} :
    ∀ {st st1 st2 : StageNodes}, StageNodes.run der lr st es = some st1 →
      StageNodes.run der lr st1 fs = some st2 →
      StageNodes.run der lr st (es ++ fs) = some st2 := by
  induction es with
  | nil =>
    intro st st1 st2 h1 h2
    simp only [StageNodes.run, Option.some.injEq] at h1
    subst h1
    exact h2
  | cons e es ih =>
    intro st st1 st2 h1 h2
    obtain ⟨st', hstep, hrest⟩ := StageNodes.node_run_cons h1
    simp only [List.cons_append, StageNodes.run, hstep]
    exact ih hrest h2

theorem StageNodes.step_forward_real (der : ActivationFunc → ActivationFunc) (lr : ℚ)
    {st : StageNodes} {x : MatrixXd} (hc : st.layer.Consistent)
    (hx : isPoisonPill x = false) :
    ∃ st1, st.step der lr (NodeEvent.forward x) = some st1 ∧
      st1.weightUpdateInbox = st.weightUpdateInbox := by
  obtain ⟨W, b, hW, hb⟩ := hc.latest
  have hf := FlowLayer.forward_prop_eq st.layer x W b hW hb
  simp only [StageNodes.step, forwardNode, hx, hf, Bool.false_eq_true, if_false,
    Option.map_some']
  exact ⟨_, rfl, rfl⟩

theorem StageNodes.step_backward_real (der : ActivationFunc → ActivationFunc) (lr : ℚ)
    {st : StageNodes} {g : MatrixXd} (hc : st.layer.Consistent)
    (hz : st.layer.z_values ≠ []) (hg : isPoisonPill g = false) :
    ∃ st1, st.step der lr (NodeEvent.backward g) = some st1 ∧
      st1.weightUpdateInbox
        = if st.microBatchCounter + 1 = 8 then st.weightUpdateInbox + 1
          else st.weightUpdateInbox := by
  cases hzv : st.layer.z_values with
  | nil => exact absurd hzv hz
  | cons z rest =>
    have hzl := hc.z_len
    rw [hzv] at hzl
    simp only [List.length_cons] at hzl
    obtain ⟨gen, hgen, hlt⟩ := hc.stash st.layer.micro_batch_num_back (by omega)
    have hb := FlowLayer.back_prop_eq der st.layer g z _ rest gen hzv hgen
      (List.getElem?_eq_getElem hlt)
    by_cases hcnt : st.microBatchCounter + 1 = 8
    · simp only [StageNodes.step, backwardNode, hg, hb, hcnt, Bool.false_eq_true, if_false,
        if_true, Option.map_some']
      exact ⟨_, rfl, rfl⟩
    · simp only [StageNodes.step, backwardNode, hg, hb, hcnt, Bool.false_eq_true, if_false,
        Option.map_some']
      exact ⟨_, rfl, rfl⟩

theorem StageNodes.step_update_ready (der : ActivationFunc → ActivationFunc) (lr : ℚ)
    {st : StageNodes} {inbox : Nat} (hc : st.layer.Consistent)
    (hu : 1 ≤ st.layer.update_after)
    (hpending : st.layer.update_after ≤ st.layer.dz_values.length)
    (hin : st.weightUpdateInbox = inbox + 1) :
    ∃ st1, st.step der lr NodeEvent.weightUpdate = some st1 ∧
      st1.weightUpdateInbox = inbox := by
  obtain ⟨W, b, hret⟩ := hc.update_weights_returns lr hu hpending
  simp only [StageNodes.step, weightUpdateNode, hin, hret]
  exact ⟨_, rfl, rfl⟩

theorem StageNodes.Draining.schedule_returns (der : ActivationFunc → ActivationFunc) (lr : ℚ)
    {batches : List (MatrixXd × MatrixXd)} :
    ∀ {k : Nat} {st : StageNodes}, st.Draining k k → st.weightUpdateInbox = 0 →
      (∀ b ∈ batches, isPoisonPill b.1 = false ∧ isPoisonPill b.2 = false) →
      ∃ st1, StageNodes.run der lr st (drainSchedule k batches) = some st1 ∧
        st1.weightUpdateInbox = 0 ∧
        st1.Draining (k + batches.length) (k + batches.length) := by
  induction batches with
  | nil =>
    intro k st h hin _
    exact ⟨st, rfl, hin, by simpa using h⟩
  | cons b rest ih =>
    intro k st h hin hreal
    obtain ⟨x, g⟩ := b
    obtain ⟨hx, hg⟩ := hreal (x, g) (List.mem_cons_self _ _)
    have hrest : ∀ b ∈ rest, isPoisonPill b.1 = false ∧ isPoisonPill b.2 = false :=
      fun b hb => hreal b (List.mem_cons_of_mem _ hb)
    simp only at hx hg
    -- forward node
    obtain ⟨sta, hsa, hina⟩ := StageNodes.step_forward_real der lr
      h.consistent hx
    have hda := h.drain_step hsa
    simp only [countRealForward, countRealBackward, hx, Bool.false_eq_true, if_false,
      Nat.zero_add, Nat.add_zero] at hda
    -- backward node
    have hza : sta.layer.z_values ≠ [] := by
      intro hnil
      have hzl := hda.consistent.z_len
      rw [hnil, hda.forwarded, hda.backwarded] at hzl
      simp at hzl
    obtain ⟨stb, hsb, hinb⟩ := StageNodes.step_backward_real der lr
      hda.consistent hza hg
    have hdb := hda.drain_step hsb
    simp only [countRealForward, countRealBackward, hg, Bool.false_eq_true, if_false,
      Nat.zero_add, Nat.add_zero] at hdb
    have hcnt := hda.counter
    have hlen : k + (rest.length + 1) = k + 1 + rest.length := by omega
    simp only [drainSchedule, List.length_cons]
    by_cases hk : (k + 1) % 8 = 0
    · -- the eighth backward execution has put a message; the weight update runs
      have hinb1 : stb.weightUpdateInbox = 0 + 1 := by
        rw [hinb, if_pos (by omega), hina, hin]
      have hpend := hdb.pending
      obtain ⟨stc, hsc, hinc⟩ := StageNodes.step_update_ready der lr
        hdb.consistent (by rw [hdb.update_after]; decide)
        (by rw [hdb.update_after]; omega) hinb1
      have hdc := hdb.drain_step hsc
      simp only [countRealForward, countRealBackward, Nat.add_zero] at hdc
      obtain ⟨st1, hrun, hin1, hd1⟩ := ih hdc hinc hrest
      refine ⟨st1, ?_, hin1, by rw [hlen]; exact hd1⟩
      simp only [hk, if_true, List.cons_append, List.nil_append, StageNodes.run, hsa, hsb, hsc]
      exact hrun
    · have hinb0 : stb.weightUpdateInbox = 0 := by
        rw [hinb, if_neg (by omega), hina, hin]
      obtain ⟨st1, hrun, hin1, hd1⟩ := ih hdb hinb0 hrest
      refine ⟨st1, ?_, hin1, by rw [hlen]; exact hd1⟩
      simp only [hk, if_false, List.cons_append, List.nil_append, List.append_nil,
        StageNodes.run, hsa, hsb]
      exact hrun

/-- C11, counterexample.  One real micro-batch and then the poison pill pass the forward
node and the backward node of a stage (`update_after = 8`).  Both counters stand at 1 and the
z-queue is empty, but the stash map still holds the entry of sequence number 0, one gradient
is pending and one received input is queued; no weight update was put. -/
theorem drain_leaves_entries :
    ∃ st, StageNodes.run linear_der 1 (StageNodes.fresh (scalarStage 8 2))
        [NodeEvent.forward (MatrixXd.scalar 3), NodeEvent.backward (MatrixXd.scalar 1),
          NodeEvent.forward (MatrixXd.scalar (-1)), NodeEvent.backward (MatrixXd.scalar (-1))]
        = some st ∧
      st.layer.micro_batch_num_forw = 1 ∧ st.layer.micro_batch_num_back = 1 ∧
      st.layer.z_values = [] ∧ st.weightUpdateInbox = 0 ∧
      st.layer.stash_map 0 = some 0 ∧
      st.layer.dz_values.length = 1 ∧
      st.layer.received_activations.length = 1 :=
  ⟨_, rfl, rfl, rfl, rfl, rfl, rfl, rfl, rfl⟩

/-- C11, amended (drain).  `M` real micro-batches (`batches`: the input and the gradient
coming back) and then the poison pill pass the nodes of a new stage with `update_after = 8`.
* Passing one after the other, with every weight update that a backward node puts run, all
  node executions return.
* Whatever the order of the node executions, if they all return and every weight update put
  has run, then exactly `M` `forward_prop` and `M` `back_prop` calls were executed
  (`micro_batch_num_forw = micro_batch_num_back = M`), the z-queue is empty, the stash map
  holds exactly the entries of the sequence numbers below `M`, and `M % 8` pending gradients
  and `M % 8` received inputs are left. -/
theorem drain_leaves_stash_and_remainder (der : ActivationFunc → ActivationFunc)
    (learning_rate : ℚ) (curr_neurons : Nat) (input_shape : Shape)
    (activation : ActivationFunc) (random : Nat → Nat → ℚ)
    (batches : List (MatrixXd × MatrixXd)) (sentinel : MatrixXd)
    (hreal : ∀ b ∈ batches, isPoisonPill b.1 = false ∧ isPoisonPill b.2 = false)
    (hsentinel : isPoisonPill sentinel = true) :
    (∃ st, StageNodes.run der learning_rate
        (StageNodes.fresh (FlowLayer.new curr_neurons input_shape activation 8 random))
        (drainSchedule 0 batches
          ++ [NodeEvent.forward sentinel, NodeEvent.backward sentinel]) = some st ∧
      st.weightUpdateInbox = 0 ∧ st.Drained batches.length) ∧
    (∀ es st, StageNodes.run der learning_rate
        (StageNodes.fresh (FlowLayer.new curr_neurons input_shape activation 8 random)) es
        = some st →
      countRealForward es = batches.length → countRealBackward es = batches.length →
      st.weightUpdateInbox = 0 → st.Drained batches.length) := by
  have hfresh := StageNodes.Draining.drain_fresh curr_neurons input_shape activation random
  constructor
  · obtain ⟨st, hrun, hin, hd⟩ := StageNodes.Draining.schedule_returns der learning_rate
      hfresh rfl hreal
    rw [Nat.zero_add] at hd
    refine ⟨st, StageNodes.run_append hrun ?_, hin, hd.drained hin⟩
    simp [StageNodes.run, StageNodes.step, forwardNode, backwardNode, hsentinel]
  · intro es st hrun hf hb hin
    have hd := hfresh.drain_run hrun
    rw [Nat.zero_add, Nat.zero_add, hf, hb] at hd
    exact hd.drained hin

/-- Witness of the amended C11: nine micro-batches, so that one weight update runs and one
gradient is left. -/
theorem drain_leaves_stash_and_remainder_witness :
    (∀ b ∈ List.replicate 9 (MatrixXd.scalar 3, MatrixXd.scalar 1),
      isPoisonPill b.1 = false ∧ isPoisonPill b.2 = false) ∧
    isPoisonPill (MatrixXd.scalar (-1)) = true ∧
    (∃ st, StageNodes.run linear_der 1 (StageNodes.fresh (FlowLayer.new 1 (1, 1) linear 8
          (fun _ _ => 2)))
        (drainSchedule 0 (List.replicate 9 (MatrixXd.scalar 3, MatrixXd.scalar 1))
          ++ [NodeEvent.forward (MatrixXd.scalar (-1)),
              NodeEvent.backward (MatrixXd.scalar (-1))]) = some st ∧
      st.weightUpdateInbox = 0 ∧
      st.Drained (List.replicate 9 (MatrixXd.scalar 3, MatrixXd.scalar 1)).length) ∧
    (∀ es st, StageNodes.run linear_der 1
        (StageNodes.fresh (FlowLayer.new 1 (1, 1) linear 8 (fun _ _ => 2))) es = some st →
      countRealForward es = (List.replicate 9 (MatrixXd.scalar 3, MatrixXd.scalar 1)).length →
      countRealBackward es = (List.replicate 9 (MatrixXd.scalar 3, MatrixXd.scalar 1)).length →
      st.weightUpdateInbox = 0 →
      st.Drained (List.replicate 9 (MatrixXd.scalar 3, MatrixXd.scalar 1)).length) :=
  have hreal : ∀ b ∈ List.replicate 9 (MatrixXd.scalar 3, MatrixXd.scalar 1),
      isPoisonPill b.1 = false ∧ isPoisonPill b.2 = false := by
    intro b hb
    rw [List.eq_of_mem_replicate hb]
    exact ⟨rfl, rfl⟩
  ⟨hreal, rfl,
    drain_leaves_stash_and_remainder linear_der 1 1 (1, 1) linear (fun _ _ => 2)
      (List.replicate 9 (MatrixXd.scalar 3, MatrixXd.scalar 1)) (MatrixXd.scalar (-1))
      hreal rfl⟩

/-! ## The scenario with two stages -/

/-- C14, the code at a failing input.  Two stages are added with `updateAfter = 2`; four real
micro-batches (of two samples each) pass the whole pipeline one after the other (forward through both stages, the
output layer, backward through both stages).  Afterwards each stage has executed four
forward and four backward calls, its counter `microBatchCounters[i]` stands at 4, no message
was ever put to its weight-update node, all four gradients are pending and its weight stash
holds the initial version only: the backward node waits for the counter to reach 8. -/
theorem two_stage_scenario_no_update :
    ∃ stages,
      pipelinePasses linear_der linear (fun _ => MatrixXd.pair 1 1)
        ((addLayer (addLayer [] 1 (1, 2) linear 2 (fun _ _ => 2)) 1 (1, 2) linear 2
          (fun _ _ => 3)).map StageNodes.fresh)
        [MatrixXd.pair 1 0, MatrixXd.pair 0 1, MatrixXd.pair 1 1, MatrixXd.pair 2 1]
        = some stages ∧
      stages.map (fun st => st.layer.update_after) = [2, 2] ∧
      stages.map (fun st => st.layer.micro_batch_num_forw) = [4, 4] ∧
      stages.map (fun st => st.layer.micro_batch_num_back) = [4, 4] ∧
      stages.map (fun st => st.microBatchCounter) = [4, 4] ∧
      stages.map (fun st => st.weightUpdateInbox) = [0, 0] ∧
      stages.map (fun st => st.layer.dz_values.length) = [4, 4] ∧
      stages.map (fun st => st.layer.weight_stash.length) = [1, 1] :=
  ⟨_, rfl, rfl, rfl, rfl, rfl, rfl, rfl, rfl⟩

/-! ## The edges of the flow graph -/

theorem runConfPipeline.node_loop_eq :
    ∀ (n : Nat) (g : FlowGraph), runConfPipeline.node_loop n g =
      { g with forwardNodes := g.forwardNodes + n, weightUpdates := g.weightUpdates + n
               backwardNodes := g.backwardNodes + n } := by
  intro n
  induction n with
  | zero => intro g; rfl
  | succ n ih =>
    intro g
    simp only [runConfPipeline.node_loop, ih, FlowGraph.mk.injEq, and_true]
    omega

theorem runConfPipeline.edge_loop_eq :
    ∀ (rounds i : Nat) (g : FlowGraph), i + rounds < g.forwardNodes →
      i + rounds < g.backwardNodes →
      runConfPipeline.edge_loop rounds i g
        = some { g with edges := g.edges ++ runConfPipeline.loop_edges rounds i } := by
  intro rounds
  induction rounds with
  | zero => intro i g _ _; simp [runConfPipeline.edge_loop, runConfPipeline.loop_edges]
  | succ n ih =>
    intro i g hf hb
    have h1 : i < g.forwardNodes := by omega
    have h2 : i + 1 < g.forwardNodes := by omega
    have h3 : i < g.backwardNodes := by omega
    have h4 : i + 1 < g.backwardNodes := by omega
    simp only [runConfPipeline.edge_loop, FlowGraph.make_edge, FlowGraph.contains, h1, h2, h3,
      h4, decide_True, Bool.and_self, if_true]
    rw [ih (i + 1) _ (by simp only; omega) (by simp only; omega)]
    simp [runConfPipeline.loop_edges]

theorem runConfPipeline.graph_eq (n : Nat) :
    runConfPipeline.graph n = some
      { forwardNodes := n + 1, weightUpdates := n + 1, backwardNodes := n + 1
        edges := (GraphNode.input, GraphNode.forwardNodes 0)
          :: (GraphNode.forwardNodes n, GraphNode.backwardNodes n)
          :: runConfPipeline.loop_edges n 0 } := by
  simp only [runConfPipeline.graph, runConfPipeline.node_loop_eq, Nat.zero_add,
    FlowGraph.make_edge, FlowGraph.contains, Nat.add_sub_cancel, Nat.lt_add_one,
    Nat.zero_lt_succ, decide_True, Bool.and_self, if_true, List.nil_append]
  rw [runConfPipeline.edge_loop_eq n 0 _ (by simp only; omega) (by simp only; omega)]
  simp

theorem runConfPipeline.loop_edges_succ :
    ∀ (rounds i : Nat), runConfPipeline.loop_edges (rounds + 1) i
      = runConfPipeline.loop_edges rounds i
        ++ [(GraphNode.forwardNodes (i + rounds), GraphNode.forwardNodes (i + rounds + 1)),
            (GraphNode.backwardNodes (i + rounds + 1), GraphNode.backwardNodes (i + rounds))] := by
  intro rounds
  induction rounds with
  | zero => intro i; simp [runConfPipeline.loop_edges]
  | succ n ih =>
    intro i
    rw [runConfPipeline.loop_edges, ih (i + 1)]
    simp only [runConfPipeline.loop_edges, List.cons_append]
    have h1 : i + 1 + n = i + (n + 1) := by omega
    rw [h1]

theorem consecutive_append_cons {α : Type} (x y : α) (r : List α) :
    ∀ l : List α, consecutive (l ++ x :: y :: r)
      = consecutive (l ++ [x]) ++ (x, y) :: consecutive (y :: r) := by
  intro l
  induction l with
  | nil => simp [consecutive]
  | cons a l ih =>
    cases l with
    | nil => simp [consecutive]
    | cons b l =>
      show (a, b) :: consecutive (b :: (l ++ x :: y :: r))
        = (a, b) :: consecutive (b :: (l ++ [x])) ++ (x, y) :: consecutive (y :: r)
      rw [show consecutive (b :: (l ++ x :: y :: r))
        = consecutive (b :: (l ++ [x])) ++ (x, y) :: consecutive (y :: r) from ih]
      rfl

theorem mem_of_mem_consecutive {α : Type} {x y : α} :
    ∀ {l : List α}, (x, y) ∈ consecutive l → x ∈ l := by
  intro l
  induction l with
  | nil => intro h; simp [consecutive] at h
  | cons a l ih =>
    cases l with
    | nil => intro h; simp [consecutive] at h
    | cons b l =>
      intro h
      simp only [consecutive, List.mem_cons, Prod.mk.injEq] at h
      rcases h with ⟨rfl, -⟩ | h
      · exact List.mem_cons_self _ _
      · exact List.mem_cons_of_mem _ (ih h)

theorem nodup_consecutive {α : Type} : ∀ {l : List α}, l.Nodup → (consecutive l).Nodup := by
  intro l
  induction l with
  | nil => intro _; simp [consecutive]
  | cons a l ih =>
    cases l with
    | nil => intro _; simp [consecutive]
    | cons b l =>
      intro h
      rw [List.nodup_cons] at h
      simp only [consecutive, List.nodup_cons]
      exact ⟨fun hmem => h.1 (mem_of_mem_consecutive hmem), ih h.2⟩

theorem spec_chain_nodup (n : Nat) : (spec_chain n).Nodup := by
  have hf : Function.Injective GraphNode.forwardNodes := fun a b h => by cases h; rfl
  have hb : Function.Injective GraphNode.backwardNodes := fun a b h => by cases h; rfl
  have hin : GraphNode.input ∉ (List.range (n + 1)).map GraphNode.forwardNodes
      ++ (List.range (n + 1)).reverse.map GraphNode.backwardNodes := by
    intro hmem
    rcases List.mem_append.1 hmem with h | h
    · obtain ⟨i, -, hi⟩ := List.mem_map.1 h
      cases hi
    · obtain ⟨i, -, hi⟩ := List.mem_map.1 h
      cases hi
  have hdisj : ∀ a, a ∈ (List.range (n + 1)).map GraphNode.forwardNodes →
      a ∈ (List.range (n + 1)).reverse.map GraphNode.backwardNodes → False := by
    intro a ha hb'
    obtain ⟨i, -, rfl⟩ := List.mem_map.1 ha
    obtain ⟨j, -, h⟩ := List.mem_map.1 hb'
    cases h
  exact List.nodup_cons.2 ⟨hin, List.Nodup.append ((List.nodup_range _).map hf)
    ((List.nodup_reverse.2 (List.nodup_range _)).map hb) hdisj⟩

/-- Edges of the path through the input node and the forward nodes 0, …, n. -/
theorem consecutive_forward_succ (n : Nat) :
    consecutive (GraphNode.input :: (List.range (n + 1 + 1)).map GraphNode.forwardNodes)
      = consecutive (GraphNode.input :: (List.range (n + 1)).map GraphNode.forwardNodes)
        ++ [(GraphNode.forwardNodes n, GraphNode.forwardNodes (n + 1))] := by
  have h := consecutive_append_cons (GraphNode.forwardNodes n) (GraphNode.forwardNodes (n + 1))
    [] (GraphNode.input :: (List.range n).map GraphNode.forwardNodes)
  simp only [consecutive] at h
  rw [@List.range_succ (n + 1), @List.range_succ n]
  simpa using h

theorem consecutive_backward_succ (n : Nat) :
    consecutive ((List.range (n + 1 + 1)).reverse.map GraphNode.backwardNodes)
      = (GraphNode.backwardNodes (n + 1), GraphNode.backwardNodes n)
        :: consecutive ((List.range (n + 1)).reverse.map GraphNode.backwardNodes) := by
  rw [@List.range_succ (n + 1), @List.range_succ n]
  simp [consecutive]

theorem loop_edges_perm (n : Nat) :
    ((GraphNode.input, GraphNode.forwardNodes 0) :: runConfPipeline.loop_edges n 0).Perm
      (consecutive (GraphNode.input :: (List.range (n + 1)).map GraphNode.forwardNodes)
        ++ consecutive ((List.range (n + 1)).reverse.map GraphNode.backwardNodes)) := by
  induction n with
  | zero => simp [runConfPipeline.loop_edges, consecutive]
  | succ n ih =>
    rw [runConfPipeline.loop_edges_succ, consecutive_forward_succ, consecutive_backward_succ,
      Nat.zero_add, ← List.cons_append]
    have h1 := ih.append_right
      [(GraphNode.forwardNodes n, GraphNode.forwardNodes (n + 1)),
        (GraphNode.backwardNodes (n + 1), GraphNode.backwardNodes n)]
    refine h1.trans ?_
    simp only [List.append_assoc]
    refine List.Perm.append_left _ ?_
    exact List.perm_append_comm

theorem spec_chain_edges (n : Nat) :
    consecutive (spec_chain n)
      = consecutive (GraphNode.input :: (List.range (n + 1)).map GraphNode.forwardNodes)
        ++ (GraphNode.forwardNodes n, GraphNode.backwardNodes n)
          :: consecutive ((List.range (n + 1)).reverse.map GraphNode.backwardNodes) := by
  have h := consecutive_append_cons (GraphNode.forwardNodes n) (GraphNode.backwardNodes n)
    ((List.range n).reverse.map GraphNode.backwardNodes)
    (GraphNode.input :: (List.range n).map GraphNode.forwardNodes)
  simp only [spec_chain]
  rw [@List.range_succ n]
  simpa using h

theorem mem_of_mem_consecutive_right {α : Type} {x y : α} :
    ∀ {l : List α}, (x, y) ∈ consecutive l → y ∈ l := by
  intro l
  induction l with
  | nil => intro h; simp [consecutive] at h
  | cons a l ih =>
    cases l with
    | nil => intro h; simp [consecutive] at h
    | cons b l =>
      intro h
      simp only [consecutive, List.mem_cons, Prod.mk.injEq] at h
      rcases h with ⟨-, rfl⟩ | h
      · exact List.mem_cons_of_mem _ (List.mem_cons_self _ _)
      · exact List.mem_cons_of_mem _ (ih h)

theorem spec_chain_contains (n : Nat) (g : FlowGraph) (hf : g.forwardNodes = n + 1)
    (hb : g.backwardNodes = n + 1) : ∀ v, v ∈ spec_chain n → g.contains v = true := by
  intro v hv
  simp only [spec_chain, List.mem_cons, List.mem_append, List.mem_map, List.mem_range,
    List.mem_reverse] at hv
  rcases hv with rfl | ⟨i, hi, rfl⟩ | ⟨i, hi, rfl⟩
  · rfl
  · simp [FlowGraph.contains, hf, hi]
  · simp [FlowGraph.contains, hb, hi]

/-- C17 (graph wiring).  For every number `n` of added stages, `runConfPipeline` run on a
new `PipelineModel` builds `n + 1` forward nodes and `n + 1` backward nodes (index `n` is the
output layer), every `make_edge` call indexes the node vectors inside their bounds, and the
edges made are, each exactly once and with no other edge, the edges of the chain
`input → forwardNodes[0] → … → forwardNodes[n] → backwardNodes[n] → … → backwardNodes[0]`. -/
theorem graph_wiring (n : Nat) :
    ∃ g, runConfPipeline.graph n = some g ∧
      g.forwardNodes = n + 1 ∧ g.backwardNodes = n + 1 ∧
      g.edges.Perm (consecutive (spec_chain n)) ∧
      g.edges.Nodup ∧
      (∀ e, e ∈ g.edges ↔ e ∈ consecutive (spec_chain n)) ∧
      (∀ e ∈ g.edges, g.contains e.1 = true ∧ g.contains e.2 = true) := by
  have hperm : ((GraphNode.input, GraphNode.forwardNodes 0)
      :: (GraphNode.forwardNodes n, GraphNode.backwardNodes n)
      :: runConfPipeline.loop_edges n 0).Perm (consecutive (spec_chain n)) := by
    rw [spec_chain_edges]
    refine (List.Perm.swap _ _ _).trans ?_
    refine ((loop_edges_perm n).cons _).trans ?_
    exact List.perm_middle.symm
  have hnodup := nodup_consecutive (spec_chain_nodup n)
  refine ⟨_, runConfPipeline.graph_eq n, rfl, rfl, hperm, hperm.nodup_iff.2 hnodup,
    fun e => hperm.mem_iff, ?_⟩
  intro e he
  have hmem : e ∈ consecutive (spec_chain n) := hperm.mem_iff.1 he
  obtain ⟨x, y⟩ := e
  exact ⟨spec_chain_contains n _ rfl rfl x (mem_of_mem_consecutive hmem),
    spec_chain_contains n _ rfl rfl y (mem_of_mem_consecutive_right hmem)⟩

/-! ## Pending gradients and received inputs, by sequence number -/

theorem FlowLayer.Aligned.aligned_new (der : ActivationFunc → ActivationFunc) (n : Nat)
    (sh : Shape) (act : ActivationFunc) (u : Nat) (rnd : Nat → Nat → ℚ) :
    (FlowLayer.new n sh act u rnd).Aligned der act History.empty where
  activation := rfl
  forwarded := rfl
  backwarded := rfl
  ordered := Nat.le_refl _
  retired := Nat.le_refl _
  received := rfl
  pending := rfl
  queued := rfl
  computed := by intro k g dz h; simp [History.empty] at h

theorem FlowLayer.Aligned.aligned_step {der : ActivationFunc → ActivationFunc}
    {act : ActivationFunc} {s s1 : FlowLayer} {h : History} {c : Call}
    (ha : s.Aligned der act h) (hstep : s.step der c = some s1) :
    s1.Aligned der act (h.record s c s1) := by
  have hfl := ha.forwarded
  have hbl := ha.backwarded
  have hord := ha.ordered
  have hret := ha.retired
  cases c with
  | forward_prop x =>
    obtain ⟨a, hret1⟩ := Completion.state?_eq_some hstep
    obtain ⟨W, b, -, -, -, rfl⟩ := FlowLayer.forward_prop_state hret1
    refine ⟨ha.activation, ?_, hbl, ?_, hret, ?_, ha.pending, ?_, ?_⟩
    · simp only [History.record, List.length_append, List.length_singleton, hfl]
    · simp only; omega
    · simp only [History.record, List.map_append, List.map_cons, List.map_nil]
      rw [List.drop_append_of_le_length (by rw [List.length_map]; omega), ← ha.received]
    · simp only [History.record, List.map_append, List.map_cons, List.map_nil]
      rw [List.drop_append_of_le_length (by rw [List.length_map]; omega), ← ha.queued]
    · intro k g dz hk
      obtain ⟨x0, z0, h0, hdz⟩ := ha.computed k g dz hk
      exact ⟨x0, z0, List.getElem?_append_of_some h0 _, hdz⟩
  | back_prop g =>
    obtain ⟨a, hret1⟩ := Completion.state?_eq_some hstep
    obtain ⟨z, rest, hz, rfl⟩ := FlowLayer.back_prop_inv hret1
    have hq := ha.queued
    rw [hz] at hq
    have hlt : s.micro_batch_num_back < (h.forwards.map Prod.snd).length := by
      by_contra hge
      rw [List.drop_eq_nil_of_le (by omega)] at hq
      cases hq
    have hfs : (h.forwards.map Prod.snd)[s.micro_batch_num_back]? = some z := by
      have h0 := List.getElem?_drop (h.forwards.map Prod.snd) s.micro_batch_num_back 0
      rw [← hq] at h0
      simpa using h0.symm
    refine ⟨ha.activation, hfl, ?_, ?_, ?_, ha.received, ?_, ?_, ?_⟩
    · simp only [History.record, List.length_append, List.length_singleton, hbl]
    · simp only
      rw [List.length_map] at hlt
      omega
    · simp only [History.record]; omega
    · simp only [History.record, List.map_append, List.map_cons, List.map_nil]
      rw [List.drop_append_of_le_length (by rw [List.length_map]; omega), ← ha.pending]
    · simp only [History.record]
      rw [← List.tail_drop, ← hq]
      rfl
    · intro k g0 dz0 hk
      simp only [History.record] at hk
      by_cases hkl : k < h.backwards.length
      · rw [List.getElem?_append_left hkl] at hk
        exact ha.computed k g0 dz0 hk
      · rw [List.getElem?_append_right (by omega)] at hk
        have hk0 : k = h.backwards.length := by
          by_contra hne
          have : 1 ≤ k - h.backwards.length := by omega
          rw [List.getElem?_eq_none (by simpa using this)] at hk
          cases hk
        subst hk0
        simp only [Nat.sub_self, List.getElem?_cons_zero, Option.some.injEq,
          Prod.mk.injEq] at hk
        obtain ⟨rfl, rfl⟩ := hk
        rw [List.getElem?_map] at hfs
        cases hfk : h.forwards[s.micro_batch_num_back]? with
        | none => rw [hfk] at hfs; cases hfs
        | some xz =>
          rw [hfk] at hfs
          simp only [Option.map_some', Option.some.injEq] at hfs
          refine ⟨xz.1, xz.2, ?_, ?_⟩
          · show h.forwards[h.backwards.length]? = some (xz.1, xz.2)
            rw [hbl, hfk]
          · rw [hfs, ← ha.activation]
  | update_weights lr =>
    obtain ⟨a, hret1⟩ := Completion.state?_eq_some hstep
    obtain ⟨W, b, rfl, hdz, -⟩ := FlowLayer.update_weights_inv hret1
    have hp := ha.pending
    have hlen : s.dz_values.length = s.micro_batch_num_back - h.retired := by
      rw [hp, List.length_drop, List.length_map, hbl]
    refine ⟨ha.activation, hfl, hbl, hord, ?_, ?_, ?_, ha.queued, ha.computed⟩
    · simp only [History.record]
      omega
    · simp only [History.record]
      rw [ha.received, List.drop_drop]
    · simp only [History.record]
      rw [hp, List.drop_drop]

theorem FlowLayer.Aligned.aligned_run {der : ActivationFunc → ActivationFunc}
    {act : ActivationFunc} {cs : List Call} :
    ∀ {s s1 : FlowLayer} {h h1 : History}, s.Aligned der act h →
      FlowLayer.runLogged der s h cs = some (s1, h1) → s1.Aligned der act h1 := by
  induction cs with
  | nil =>
    intro s s1 h h1 ha hrun
    simp only [FlowLayer.runLogged, Option.some.injEq, Prod.mk.injEq] at hrun
    obtain ⟨rfl, rfl⟩ := hrun
    exact ha
  | cons c cs ih =>
    intro s s1 h h1 ha hrun
    simp only [FlowLayer.runLogged] at hrun
    cases hstep : s.step der c with
    | none => rw [hstep] at hrun; cases hrun
    | some s' =>
      rw [hstep] at hrun
      exact ih (ha.aligned_step hstep) hrun

theorem FlowLayer.runLogged_of_run {der : ActivationFunc → ActivationFunc} {cs : List Call} :
    ∀ {s s1 : FlowLayer} (h : History), FlowLayer.run der s cs = some s1 →
      ∃ h1, FlowLayer.runLogged der s h cs = some (s1, h1) := by
  induction cs with
  | nil =>
    intro s s1 h hrun
    simp only [FlowLayer.run, Option.some.injEq] at hrun
    subst hrun
    exact ⟨h, rfl⟩
  | cons c cs ih =>
    intro s s1 h hrun
    obtain ⟨s', hstep, hrest⟩ := FlowLayer.run_cons hrun
    obtain ⟨h1, hh1⟩ := ih (h.record s c s') hrest
    exact ⟨h1, by simp only [FlowLayer.runLogged, hstep]; exact hh1⟩

/-- C21 (received inputs and pending gradients).  A constructed stage is driven by any
calls that return; `h` is the history of these calls by sequence number.  Then
* `received_activations` holds as many entries more than `dz_values` as micro-batches are in
  flight: `|received_activations| - |dz_values| = micro_batch_num_forw - micro_batch_num_back`;
* the `i`-th received input is the input of the micro-batch with sequence number
  `retired + i`, and the `i`-th pending gradient is the `dz` of the micro-batch with the same
  sequence number `retired + i`, computed from the `z` of that micro-batch;
* with at least `update_after` pending gradients the `update_after` pops of
  `received_activations` in `update_weights` all find an element, and (for
  `update_after ≥ 1`) `update_weights` returns. -/
theorem received_inputs_match_pending (der : ActivationFunc → ActivationFunc)
    (curr_neurons : Nat) (input_shape : Shape) (activation : ActivationFunc) (update_num : Nat)
    (random : Nat → Nat → ℚ) (calls : List Call) (s : FlowLayer)
    (hrun : FlowLayer.run der
      (FlowLayer.new curr_neurons input_shape activation update_num random) calls = some s) :
    ∃ h, FlowLayer.runLogged der
        (FlowLayer.new curr_neurons input_shape activation update_num random)
        History.empty calls = some (s, h) ∧
      s.micro_batch_num_back ≤ s.micro_batch_num_forw ∧
      s.dz_values.length ≤ s.received_activations.length ∧
      s.received_activations.length - s.dz_values.length
        = s.micro_batch_num_forw - s.micro_batch_num_back ∧
      h.forwards.length = s.micro_batch_num_forw ∧
      h.backwards.length = s.micro_batch_num_back ∧
      (∀ i : Nat, s.received_activations[i]? = (h.forwards.map Prod.fst)[h.retired + i]?) ∧
      (∀ i : Nat, s.dz_values[i]? = (h.backwards.map Prod.snd)[h.retired + i]?) ∧
      (∀ (k : Nat) (g dz : MatrixXd), h.backwards[k]? = some (g, dz) →
        ∃ x z, h.forwards[k]? = some (x, z) ∧ dz = g.cwiseProduct (der activation z)) ∧
      (s.update_after ≤ s.dz_values.length →
        FlowLayer.update_weights.pop_loop s.update_after s.received_activations
          = some (s.received_activations.drop s.update_after)) ∧
      (∀ learning_rate : ℚ, 1 ≤ s.update_after → s.update_after ≤ s.dz_values.length →
        ∃ s1, s.update_weights learning_rate = .returned () s1) := by
  obtain ⟨h, hlog⟩ := FlowLayer.runLogged_of_run History.empty hrun
  have ha := (FlowLayer.Aligned.aligned_new der curr_neurons input_shape activation update_num
    random).aligned_run hlog
  have hc : s.Consistent := (FlowLayer.Consistent.new _ _ _ _ _).after_run hrun
  have hrl := hc.received_len
  have hzl := hc.z_len
  refine ⟨h, hlog, ha.ordered, by omega, by omega, ha.forwarded, ha.backwarded, ?_, ?_,
    ha.computed, ?_, ?_⟩
  · intro i
    rw [ha.received, List.getElem?_drop]
  · intro i
    rw [ha.pending, List.getElem?_drop]
  · intro hu
    exact FlowLayer.update_weights.pop_loop_eq _ _ (by omega)
  · intro lr hu hp
    obtain ⟨W, b, hret⟩ := hc.update_weights_returns lr hu hp
    exact ⟨_, hret⟩

/-- Witness of C21: three forward calls, two backward calls and a weight update on a stage
with `update_after = 1`. -/
theorem received_inputs_match_pending_witness :
    ∃ s h,
      FlowLayer.run linear_der (FlowLayer.new 1 (1, 1) linear 1 (fun _ _ => 2))
        [Call.forward_prop (MatrixXd.scalar 3), Call.forward_prop (MatrixXd.scalar 5),
          Call.back_prop (MatrixXd.scalar 1), Call.update_weights 1,
          Call.forward_prop (MatrixXd.scalar 4), Call.back_prop (MatrixXd.scalar 7)] = some s ∧
      FlowLayer.runLogged linear_der (FlowLayer.new 1 (1, 1) linear 1 (fun _ _ => 2))
        History.empty
        [Call.forward_prop (MatrixXd.scalar 3), Call.forward_prop (MatrixXd.scalar 5),
          Call.back_prop (MatrixXd.scalar 1), Call.update_weights 1,
          Call.forward_prop (MatrixXd.scalar 4), Call.back_prop (MatrixXd.scalar 7)]
        = some (s, h) ∧
      h.retired = 1 ∧ s.dz_values.length = 1 ∧ s.received_activations.length = 2 ∧
      s.micro_batch_num_back ≤ s.micro_batch_num_forw ∧
      s.dz_values.length ≤ s.received_activations.length ∧
      s.received_activations.length - s.dz_values.length
        = s.micro_batch_num_forw - s.micro_batch_num_back ∧
      (∀ i : Nat, s.received_activations[i]? = (h.forwards.map Prod.fst)[h.retired + i]?) ∧
      (∀ i : Nat, s.dz_values[i]? = (h.backwards.map Prod.snd)[h.retired + i]?) := by
  obtain ⟨h, h1, h2, h3, h4, -, -, h7, h8, -⟩ :=
    received_inputs_match_pending linear_der 1 (1, 1) linear 1 (fun _ _ => 2)
      [Call.forward_prop (MatrixXd.scalar 3), Call.forward_prop (MatrixXd.scalar 5),
        Call.back_prop (MatrixXd.scalar 1), Call.update_weights 1,
        Call.forward_prop (MatrixXd.scalar 4), Call.back_prop (MatrixXd.scalar 7)] _ rfl
  have hh : h = _ := (Prod.mk.inj (Option.some.inj (h1.symm.trans rfl))).2
  subst hh
  exact ⟨_, _, rfl, h1, rfl, rfl, rfl, h2, h3, h4, h7, h8⟩

/-! ## Linking layers -/

theorem Layer.operator_call_lists (heap : LayerHeap) (child parent : Nat) (C P : Layer)
    (hc : heap child = some C) (hp : heap parent = some P) :
    ∃ heap1, Layer.operator_call heap child parent = some heap1 ∧
      (∀ a L, heap a = some L → ∃ L1, heap1 a = some L1 ∧
        L1.get_parents = L.get_parents ++ (if a = child then [parent] else []) ∧
        L1.get_children = L.get_children ++ (if a = parent then [child] else []) ∧
        L1.shape = L.shape) ∧
      (∀ a, heap a = none → heap1 a = none) := by
  by_cases hpc : parent = child
  · subst hpc
    rw [hc] at hp
    cases hp
    have hcall : Layer.operator_call heap parent parent = some
        ((heap.store parent { C with parent_layers_ := C.parent_layers_ ++ [parent] }).store
          parent { C with parent_layers_ := C.parent_layers_ ++ [parent]
                          child_layers_ := C.child_layers_ ++ [parent] }) := by
      simp [Layer.operator_call, Layer.add_child, hc, LayerHeap.store]
    refine ⟨_, hcall, ?_, ?_⟩
    · intro a L ha
      by_cases hap : a = parent
      · subst hap
        rw [hc] at ha
        cases ha
        simp [LayerHeap.store, Layer.get_parents, Layer.get_children]
      · simp [LayerHeap.store, hap, ha]
    · intro a ha
      have hap : a ≠ parent := by
        intro h
        rw [h, hc] at ha
        cases ha
      simp [LayerHeap.store, hap, ha]
  · have hcall : Layer.operator_call heap child parent = some
        ((heap.store child { C with parent_layers_ := C.parent_layers_ ++ [parent] }).store
          parent { P with child_layers_ := P.child_layers_ ++ [child] }) := by
      simp [Layer.operator_call, Layer.add_child, hc, hp, LayerHeap.store, hpc]
    refine ⟨_, hcall, ?_, ?_⟩
    · intro a L ha
      by_cases hap : a = parent
      · subst hap
        rw [hp] at ha
        cases ha
        simp [LayerHeap.store, Layer.get_parents, Layer.get_children, hpc]
      · by_cases hac : a = child
        · subst hac
          rw [hc] at ha
          cases ha
          simp [LayerHeap.store, Layer.get_parents, Layer.get_children, hap]
        · simp [LayerHeap.store, hap, hac, ha]
    · intro a ha
      have hap : a ≠ parent := by
        intro h
        rw [h, hp] at ha
        cases ha
      have hac : a ≠ child := by
        intro h
        rw [h, hc] at ha
        cases ha
      simp [LayerHeap.store, hap, hac, ha]

/-- C22 (linking is symmetric).  For layers `child` and `parent` owned by shared pointers,
`child(parent)` (`Layer::operator()`) returns; afterwards the parent list of `child` is the
old one with `parent` appended at the end, the child list of `parent` is the old one with
`child` appended at the end, no other list of any layer has changed and no layer has appeared
or disappeared.  If before the call every layer `p` occurred in the parents of every layer `c`
exactly as often as `c` occurred in the children of `p`, then so it does after the call. -/
theorem layer_linking_symmetric (heap : LayerHeap) (child parent : Nat) (C P : Layer)
    (hc : heap child = some C) (hp : heap parent = some P) :
    ∃ heap1, Layer.operator_call heap child parent = some heap1 ∧
      (∃ C1, heap1 child = some C1 ∧ C1.get_parents = C.get_parents ++ [parent]) ∧
      (∃ P1, heap1 parent = some P1 ∧ P1.get_children = P.get_children ++ [child]) ∧
      (∀ a L, heap a = some L → ∃ L1, heap1 a = some L1 ∧
        L1.get_parents = L.get_parents ++ (if a = child then [parent] else []) ∧
        L1.get_children = L.get_children ++ (if a = parent then [child] else []) ∧
        L1.shape = L.shape) ∧
      (∀ a, heap a = none → heap1 a = none) ∧
      (heap.Symmetric → heap1.Symmetric) := by
  obtain ⟨heap1, hcall, hlists, hnone⟩ := Layer.operator_call_lists heap child parent C P hc hp
  refine ⟨heap1, hcall, ?_, ?_, hlists, hnone, ?_⟩
  · obtain ⟨C1, h1, h2, -, -⟩ := hlists child C hc
    exact ⟨C1, h1, by simpa using h2⟩
  · obtain ⟨P1, h1, -, h3, -⟩ := hlists parent P hp
    exact ⟨P1, h1, by simpa using h3⟩
  · intro hsym p c P1 C1 hP1 hC1
    cases hp0 : heap p with
    | none => rw [hnone p hp0] at hP1; cases hP1
    | some P0 =>
      cases hc0 : heap c with
      | none => rw [hnone c hc0] at hC1; cases hC1
      | some C0 =>
        obtain ⟨P1', hP1', -, hch, -⟩ := hlists p P0 hp0
        obtain ⟨C1', hC1', hpa, -, -⟩ := hlists c C0 hc0
        rw [hP1] at hP1'
        rw [hC1] at hC1'
        cases hP1'
        cases hC1'
        have h0 := hsym p c P0 C0 hp0 hc0
        rw [hpa, hch, List.count_append, List.count_append, h0]
        by_cases h1 : c = child <;> by_cases h2 : p = parent <;>
          simp [h1, h2, List.count_singleton, eq_comm]

theorem twoLayers_symmetric : twoLayers.Symmetric := by
  intro p c P C hP hC
  simp only [twoLayers] at hP hC
  split at hP
  · split at hC
    · cases hP
      cases hC
      rfl
    · cases hC
  · cases hP

/-- Witness of C22: the layer at address 1 linked to the parent at address 0. -/
theorem layer_linking_symmetric_witness :
    ∃ C P, twoLayers 1 = some C ∧ twoLayers 0 = some P ∧ twoLayers.Symmetric ∧
      ∃ heap1, Layer.operator_call twoLayers 1 0 = some heap1 ∧
        (∃ C1, heap1 1 = some C1 ∧ C1.get_parents = C.get_parents ++ [0]) ∧
        (∃ P1, heap1 0 = some P1 ∧ P1.get_children = P.get_children ++ [1]) ∧
        heap1.Symmetric := by
  obtain ⟨heap1, h1, h2, h3, -, -, h6⟩ :=
    layer_linking_symmetric twoLayers 1 0 _ _ rfl rfl
  exact ⟨_, _, rfl, rfl, twoLayers_symmetric, heap1, h1, h2, h3, h6 twoLayers_symmetric⟩

end DeepDendro
